import Mathlib

set_option maxHeartbeats 1000000

/- Verification of the skip list in src/skip_list_rs (lib.rs, node.rs, iter.rs,
   generator.rs).

   Modelling conventions.  Machine pointers are node identifiers: a MaybeNode
   (a possibly null pointer) becomes an Option Nat whose Nat indexes an
   explicit heap of node blocks.  A Node block stores the key, the value and
   the forward array nexts; the stored level always equals nexts.length (the
   source allocates the forward slice with exactly level slots and never
   resizes it), so the level field is represented by nexts.length.  Keys and
   values are specialised to Nat; the key order is the order on Nat.  The
   level source (the Generator collaborator) is an infinite boolean stream
   together with a cursor genIdx counting how many outputs were consumed.
   Disposed nodes stay in the heap as unreachable garbage; identifiers are
   never reused, which is sound because the structure never dereferences a
   link to a disposed node.  The while loops walking forward along a level
   are written with explicit fuel; every public operation passes
   heap.length + 1, which exceeds the length of any chain in a well formed
   state, and running out of fuel is reported as a distinguished outcome that
   is proved unreachable from well formed states. -/

/-- One node block: key, value and the forward array.  The level of the node
is nexts.length. -/
structure Node where
  key : Nat
  value : Nat
  nexts : List (Option Nat)

/-- The skip list structure from lib.rs: the level source gen (with cursor
genIdx), the element count, the head vector nodes (the Index row of entry
links) and the heap of allocated node blocks. -/
structure SkipList where
  gen : Nat → Bool
  genIdx : Nat
  count : Nat
  nodes : List (Option Nat)
  heap : List Node

/-- SkipList::new: empty structure, head vector of length one. -/
def SkipList.new (g : Nat → Bool) : SkipList :=
  ⟨g, 0, 0, [none], []⟩

/-- Read a node block from the heap (dangling identifiers yield a junk block;
they are never dereferenced from well formed states). -/
def nodeAt (s : SkipList) (i : Nat) : Node :=
  s.heap.getD i ⟨0, 0, []⟩

def keyOf (s : SkipList) (i : Nat) : Nat := (nodeAt s i).key

def valOf (s : SkipList) (i : Nat) : Nat := (nodeAt s i).value

/-- Node::level, equal to the length of the forward array. -/
def lvlOf (s : SkipList) (i : Nat) : Nat := (nodeAt s i).nexts.length

/-- A position holding a forward slice during the descent: either the head
vector of the structure or the forward array of a node. -/
inductive Loc where
  | hd : Loc
  | node : Nat → Loc

/-- The forward slice at a position. -/
def getF (s : SkipList) : Loc → List (Option Nat)
  | Loc.hd => s.nodes
  | Loc.node i => (nodeAt s i).nexts

/-- Write one slot of the forward slice at a position. -/
def setF (s : SkipList) (loc : Loc) (L : Nat) (v : Option Nat) : SkipList :=
  match loc with
  | Loc.hd => { s with nodes := s.nodes.set L v }
  | Loc.node i =>
      { s with heap := s.heap.set i { nodeAt s i with nexts := (nodeAt s i).nexts.set L v } }

/-- Fuelled bit length, modelling usize::BITS - n.leading_zeros() in alloc:
the number of binary digits of n, with bitLen 0 = 0. -/
def bitLenF : Nat → Nat → Nat
  | 0, _ => 0
  | fuel + 1, n => if n = 0 then 0 else bitLenF fuel (n / 2) + 1

def bitLen (n : Nat) : Nat := bitLenF n n

/-- The while loop of SkipList::alloc drawing the level: while size < limit
and the generator yields true, increment size.  Returns the final size and
the new generator cursor.  A false draw is consumed too: when size < limit
the generator has been called, so the cursor advances past the terminating
false, exactly as the short-circuit conjunction of the source behaves.  The
fuel argument is passed as limit by alloc, which is enough for the loop to
reach its exit condition. -/
def genLoop (g : Nat → Bool) (limit : Nat) : Nat → Nat → Nat → Nat × Nat
  | 0, idx, size => (size, idx)
  | fuel + 1, idx, size =>
    if size < limit then
      if g idx then genLoop g limit fuel (idx + 1) (size + 1) else (size, idx + 1)
    else (size, idx)

/-- SkipList::alloc: draw a level capped by the bit length of the current
count, then allocate a fresh node block with that many null forward slots.
Returns the identifier of the new block. -/
def alloc (s : SkipList) (k v : Nat) : Nat × SkipList :=
  let limit := bitLen s.count
  let r := genLoop s.gen limit limit s.genIdx 1
  (s.heap.length,
    { s with heap := s.heap ++ [⟨k, v, List.replicate r.1 none⟩], genIdx := r.2 })

/-- Outcome of the forward walk of insert_impl at one level. -/
inductive Adv where
  | stop : Loc → Adv
  | dup : Loc → Adv
  | assertFail : Adv
  | fuelOut : Adv

/-- The loop at the top of insert_impl: assert the level is inside the slice,
then advance while the next key is below the searched key; an equal key stops
the walk with the duplicate outcome, a larger key or a null link stops it at
the current position. -/
def advInsert (s : SkipList) (k : Nat) (L : Nat) : Nat → Loc → Adv
  | 0, _ => Adv.fuelOut
  | fuel + 1, loc =>
    if L < (getF s loc).length then
      match (getF s loc).getD L none with
      | none => Adv.stop loc
      | some j =>
        if keyOf s j = k then Adv.dup loc
        else if keyOf s j < k then advInsert s k L fuel (Loc.node j)
        else Adv.stop loc
    else Adv.assertFail

/-- Result of insert_impl. -/
inductive IRes where
  | ok : Nat → SkipList → IRes
  | err : IRes
  | assertFail : IRes
  | fuelOut : IRes

/-- The splice on unwinding in insert_impl: the new node takes over the
predecessor's forward link at this level, then the predecessor points at the
new node. -/
def splice (s : SkipList) (nid : Nat) (loc : Loc) (L : Nat) : SkipList :=
  let a := (getF s loc).getD L none
  let s1 := setF s (Loc.node nid) L a
  setF s1 loc L (some nid)

/-- SkipList::insert_impl, recursion on the level.  At each level: walk
forward, then either allocate at level 0 (incrementing the count) or recurse
one level down from the current position, and finally splice the new node in
at this level unless the level is at or above the node's level. -/
def insert_impl (s : SkipList) (k v : Nat) : Nat → Loc → IRes
  | 0, loc =>
    match advInsert s k 0 (s.heap.length + 1) loc with
    | Adv.stop loc2 =>
      let p := alloc s k v
      let s1 := { p.2 with count := p.2.count + 1 }
      if lvlOf s1 p.1 ≤ 0 then IRes.ok p.1 s1
      else IRes.ok p.1 (splice s1 p.1 loc2 0)
    | Adv.dup _ => IRes.err
    | Adv.assertFail => IRes.assertFail
    | Adv.fuelOut => IRes.fuelOut
  | L + 1, loc =>
    match advInsert s k (L + 1) (s.heap.length + 1) loc with
    | Adv.stop loc2 =>
      match insert_impl s k v L loc2 with
      | IRes.ok nid t =>
        if lvlOf t nid ≤ L + 1 then IRes.ok nid t
        else IRes.ok nid (splice t nid loc2 (L + 1))
      | r => r
    | Adv.dup _ => IRes.err
    | Adv.assertFail => IRes.assertFail
    | Adv.fuelOut => IRes.fuelOut

/-- Outcome of a public operation: the returned value and the new state, or
one of the two modelling failures (a fired assertion, or fuel exhaustion of
a walk). -/
inductive OpRes (α : Type) where
  | ok : α → SkipList → OpRes α
  | assertFail : OpRes α
  | fuelOut : OpRes α

/-- The head vector extension at the end of SkipList::insert: when the new
node's level exceeds the head length, append that many entry links pointing
at the new node (nodes.extend of repeat(inserted).take(d) in the source,
with d the checked difference level - len). -/
def extendHead (t : SkipList) (nid len : Nat) : SkipList :=
  { t with nodes := t.nodes ++ List.replicate (lvlOf t nid - len) (some nid) }

/-- SkipList::insert: run insert_impl from the top level of the head vector;
on success, extend the head vector with links to the new node when its level
exceeds the head length.  A duplicate key returns the pair unchanged. -/
def SkipList.insert (s : SkipList) (k v : Nat) : OpRes (Except (Nat × Nat) Unit) :=
  let len := s.nodes.length
  match insert_impl s k v (len - 1) Loc.hd with
  | IRes.ok nid t => OpRes.ok (Except.ok ()) (extendHead t nid len)
  | IRes.err => OpRes.ok (Except.error (k, v)) s
  | IRes.assertFail => OpRes.assertFail
  | IRes.fuelOut => OpRes.fuelOut

/-- Outcome of the forward walk of remove_impl at one level. -/
inductive AdvR where
  | stop : Loc → AdvR
  | assertFail : AdvR
  | fuelOut : AdvR

/-- The loop at the top of remove_impl: assert the level is inside the slice,
then advance while the next key is strictly below the searched key. -/
def advRemove (s : SkipList) (k : Nat) (L : Nat) : Nat → Loc → AdvR
  | 0, _ => AdvR.fuelOut
  | fuel + 1, loc =>
    if L < (getF s loc).length then
      match (getF s loc).getD L none with
      | none => AdvR.stop loc
      | some j =>
        if k ≤ keyOf s j then AdvR.stop loc
        else advRemove s k L fuel (Loc.node j)
    else AdvR.assertFail

/-- Result of remove_impl. -/
inductive RRes where
  | ok : Nat → SkipList → RRes
  | err : RRes
  | assertFail : RRes
  | fuelOut : RRes

/-- The unlink on unwinding in remove_impl: the predecessor takes over the
removed node's forward link at this level, which is then cleared. -/
def unlink (s : SkipList) (rid : Nat) (loc : Loc) (L : Nat) : SkipList :=
  let a := (nodeAt s rid).nexts.getD L none
  let s1 := setF s loc L a
  setF s1 (Loc.node rid) L none

/-- The count decrement performed by remove_impl at level 0. -/
def decState (s : SkipList) : SkipList := { s with count := s.count - 1 }

/-- SkipList::remove_impl, recursion on the level.  At level 0 the node at
the stop position is taken unconditionally (the source performs no equality
check on its key) and the count is decremented; on unwinding the node is
unlinked at each level below its level. -/
def remove_impl (s : SkipList) (k : Nat) : Nat → Loc → RRes
  | 0, loc =>
    match advRemove s k 0 (s.heap.length + 1) loc with
    | AdvR.stop loc2 =>
      match (getF s loc2).getD 0 none with
      | none => RRes.err
      | some rid =>
        let s1 : SkipList := decState s
        if lvlOf s1 rid ≤ 0 then RRes.ok rid s1
        else RRes.ok rid (unlink s1 rid loc2 0)
    | AdvR.assertFail => RRes.assertFail
    | AdvR.fuelOut => RRes.fuelOut
  | L + 1, loc =>
    match advRemove s k (L + 1) (s.heap.length + 1) loc with
    | AdvR.stop loc2 =>
      match remove_impl s k L loc2 with
      | RRes.ok rid t =>
        if lvlOf t rid ≤ L + 1 then RRes.ok rid t
        else RRes.ok rid (unlink t rid loc2 (L + 1))
      | r => r
    | AdvR.assertFail => RRes.assertFail
    | AdvR.fuelOut => RRes.fuelOut

/-- SkipList::remove: run remove_impl from the top level and dispose the
removed node, returning its key and value. -/
def SkipList.remove (s : SkipList) (k : Nat) : OpRes (Except Unit (Nat × Nat)) :=
  let len := s.nodes.length
  match remove_impl s k (len - 1) Loc.hd with
  | RRes.ok rid t => OpRes.ok (Except.ok (keyOf t rid, valOf t rid)) t
  | RRes.err => OpRes.ok (Except.error ()) s
  | RRes.assertFail => OpRes.assertFail
  | RRes.fuelOut => OpRes.fuelOut

/-- The inner walk of SkipList::search at one level: stop on a null link, a
slice too short for the level, or a next key at or above the searched key;
otherwise advance.  None signals fuel exhaustion. -/
def advSearch (s : SkipList) (k : Nat) (L : Nat) : Nat → Loc → Option Loc
  | 0, _ => none
  | fuel + 1, loc =>
    match (getF s loc).getD L none with
    | none => some loc
    | some j =>
      if k ≤ keyOf s j then some loc
      else advSearch s k L fuel (Loc.node j)

/-- The outer loop of SkipList::search over the levels, from the top level of
the head vector down to level 0. -/
def searchLevels (s : SkipList) (k : Nat) : Nat → Loc → Option Loc
  | 0, loc => some loc
  | L + 1, loc =>
    match advSearch s k L (s.heap.length + 1) loc with
    | some loc2 => searchLevels s k L loc2
    | none => none

/-- SkipList::search: descend through all levels, then test the level 0 link
at the final position for key equality.  The outer Option is fuel exhaustion
of the walk, the inner Option is the lookup result. -/
def SkipList.search (s : SkipList) (k : Nat) : Option (Option Nat) :=
  match searchLevels s k s.nodes.length Loc.hd with
  | none => none
  | some loc =>
    match (getF s loc).getD 0 none with
    | none => some none
    | some j => some (if keyOf s j = k then some (valOf s j) else none)

/-- Walk along the links at one level, collecting node identifiers; used to
state the chain invariants.  None signals fuel exhaustion. -/
def chainFrom (s : SkipList) (L : Nat) : Nat → Option Nat → Option (List Nat)
  | 0, _ => none
  | _ + 1, none => some []
  | fuel + 1, some i =>
      (chainFrom s L fuel ((nodeAt s i).nexts.getD L none)).map (fun l => i :: l)

/-- The chain of node identifiers at a level, read from the head vector. -/
def chainAt (s : SkipList) (L : Nat) : Option (List Nat) :=
  chainFrom s L (s.heap.length + 1) (s.nodes.getD L none)

/-- Walk along the level 0 links collecting key and value pairs, as all three
iterators of iter.rs do. -/
def iterFrom (s : SkipList) : Nat → Option Nat → Option (List (Nat × Nat))
  | 0, _ => none
  | _ + 1, none => some []
  | fuel + 1, some i =>
      (iterFrom s fuel ((nodeAt s i).nexts.getD 0 none)).map
        (fun l => (keyOf s i, valOf s i) :: l)

/-- Iter (iter.rs): the borrowed iterator starts at the level 0 entry link of
the head vector and follows level 0 forward links, yielding key and value. -/
def SkipList.iter (s : SkipList) : Option (List (Nat × Nat)) :=
  iterFrom s (s.heap.length + 1) (s.nodes.getD 0 none)

/-- IterMut (iter.rs): identical traversal to Iter, yielding the value
mutably; the yielded sequence of pairs is the same. -/
def SkipList.iterMut (s : SkipList) : Option (List (Nat × Nat)) :=
  iterFrom s (s.heap.length + 1) (s.nodes.getD 0 none)

/-- IntoIter (iter.rs): the consuming iterator suppresses the structure's own
drop, captures the level 0 entry link and then follows level 0 links,
disposing each node as it is yielded.  The yielded pair sequence coincides
with the borrowed traversal; the disposal sequence is the level 0 chain. -/
def SkipList.intoIter (s : SkipList) : Option (List (Nat × Nat)) :=
  iterFrom s (s.heap.length + 1) (s.nodes.getD 0 none)

/-- A public mutating operation. -/
inductive Op where
  | ins : Nat → Nat → Op
  | del : Nat → Op

/-- State after insert (unchanged on a modelling failure, which is proved
unreachable from well formed states). -/
def insAfter (s : SkipList) (k v : Nat) : SkipList :=
  match s.insert k v with
  | OpRes.ok _ t => t
  | _ => s

/-- Value returned by insert, when the operation completed. -/
def insResult (s : SkipList) (k v : Nat) : Option (Except (Nat × Nat) Unit) :=
  match s.insert k v with
  | OpRes.ok r _ => some r
  | _ => none

/-- State after remove. -/
def rmAfter (s : SkipList) (k : Nat) : SkipList :=
  match s.remove k with
  | OpRes.ok _ t => t
  | _ => s

/-- Value returned by remove, when the operation completed. -/
def rmResult (s : SkipList) (k : Nat) : Option (Except Unit (Nat × Nat)) :=
  match s.remove k with
  | OpRes.ok r _ => some r
  | _ => none

/-- Apply one operation. -/
def stepOp (s : SkipList) : Op → SkipList
  | Op.ins k v => insAfter s k v
  | Op.del k => rmAfter s k

/-- States reachable from an empty skip list by public operations, for an
arbitrary level source. -/
inductive Reachable : SkipList → Prop
  | new (g : Nat → Bool) : Reachable (SkipList.new g)
  | step (s : SkipList) (op : Op) : Reachable s → Reachable (stepOp s op)

/-- Whether an operation result reports a fired assertion. -/
def isAssertFail {α : Type} : OpRes α → Bool
  | OpRes.assertFail => true
  | _ => false

/-- Successful inserts and removes contributed by one operation. -/
def tallyOp (s : SkipList) : Op → Nat × Nat
  | Op.ins k v =>
    match insResult s k v with
    | some (Except.ok _) => (1, 0)
    | _ => (0, 0)
  | Op.del k =>
    match rmResult s k with
    | some (Except.ok _) => (0, 1)
    | _ => (0, 0)

/-- Run a sequence of operations, tallying successful inserts and removes. -/
def runTally : SkipList → List Op → SkipList × Nat × Nat
  | s, [] => (s, 0, 0)
  | s, op :: rest =>
    let t := runTally (stepOp s op) rest
    (t.1, (tallyOp s op).1 + t.2.1, (tallyOp s op).2 + t.2.2)

/-- The first identifier in a list whose node level exceeds L: the value a
well formed forward link at level L must hold. -/
def firstL (s : SkipList) (L : Nat) : List Nat → Option Nat
  | [] => none
  | i :: rest => if L < lvlOf s i then some i else firstL s L rest

/-- Strict key order between node identifiers. -/
def keyLt (s : SkipList) (a b : Nat) : Prop := keyOf s a < keyOf s b

/-- The well formedness invariant of a skip list state, relative to the list
ids of live node identifiers in ascending key order (the level 0 chain):
keys strictly increase, identifiers are valid, levels are between 1 and the
head length, the count matches, and every forward slot, of the head vector
and of every live node, holds exactly the first later node whose level
exceeds the slot's level. -/
structure InvWith (s : SkipList) (ids : List Nat) : Prop where
  sorted : List.Pairwise (keyLt s) ids
  valid : ∀ i ∈ ids, i < s.heap.length
  lvl_pos : ∀ i ∈ ids, 1 ≤ lvlOf s i
  lvl_le : ∀ i ∈ ids, lvlOf s i ≤ s.nodes.length
  head_pos : 1 ≤ s.nodes.length
  count_eq : s.count = ids.length
  head_ch : ∀ L, s.nodes.getD L none = firstL s L ids
  node_ch : ∀ L pre x post, ids = pre ++ x :: post → L < lvlOf s x →
      (nodeAt s x).nexts.getD L none = firstL s L post

/-- A state is well formed when some witness chain exists. -/
def WF (s : SkipList) : Prop := ∃ ids, InvWith s ids

/-- The walk position loc together with the suffix rest of the chain that
lies ahead of it: from the head the whole chain is ahead, from a node the
part of the chain after that node. -/
def locRest (s : SkipList) (ids : List Nat) : Loc → List Nat → Prop
  | Loc.hd, rest => rest = ids
  | Loc.node j, rest => ∃ pre, ids = pre ++ j :: rest

/-- The condition making the assertion of the descent hold at a position:
the level is inside the forward slice held there. -/
def sideCond (s : SkipList) (L : Nat) : Loc → Prop
  | Loc.hd => L < s.nodes.length
  | Loc.node j => L < lvlOf s j

/-- Level drawn by the next alloc on state s. -/
def newLvl (s : SkipList) : Nat :=
  (genLoop s.gen (bitLen s.count) (bitLen s.count) s.genIdx 1).1

/-- Generator cursor after the next alloc on state s. -/
def newGI (s : SkipList) : Nat :=
  (genLoop s.gen (bitLen s.count) (bitLen s.count) s.genIdx 1).2

/-- Number of consecutive true outputs of the stream g from position idx,
capped at the given budget. -/
def capTrues (g : Nat → Bool) : Nat → Nat → Nat
  | 0, _ => 0
  | b + 1, idx => if g idx then capTrues g b (idx + 1) + 1 else 0

/-- The state right after the alloc and count increment inside the level 0
case of insert_impl. -/
def allocState (s : SkipList) (k v : Nat) : SkipList :=
  { s with heap := s.heap ++ [⟨k, v, List.replicate (newLvl s) none⟩],
           genIdx := newGI s, count := s.count + 1 }

/-- Intermediate well formedness during the unwinding of a successful
insert_impl: s is the state before the operation with chain ids, A and B the
parts of ids with keys below respectively above the inserted key k, nid the
new identifier, and all levels strictly below M are already spliced.  Slots
at levels below M describe the new chain A ++ nid :: B; slots at levels at or
above M still describe ids, and the new node's slots there are still null. -/
structure PartIns (s : SkipList) (ids A B : List Nat) (k v nid : Nat)
    (t : SkipList) (M : Nat) : Prop where
  heap_len : t.heap.length = s.heap.length + 1
  key_old : ∀ i, i < s.heap.length → keyOf t i = keyOf s i
  val_old : ∀ i, i < s.heap.length → valOf t i = valOf s i
  lvl_old : ∀ i, i < s.heap.length → lvlOf t i = lvlOf s i
  key_new : keyOf t nid = k
  val_new : valOf t nid = v
  lvl_new : lvlOf t nid = newLvl s
  count_t : t.count = s.count + 1
  gen_t : t.gen = s.gen
  genIdx_t : t.genIdx = newGI s
  hlen : t.nodes.length = s.nodes.length
  head_ch : ∀ j, t.nodes.getD j none = firstL t j (if j < M then A ++ nid :: B else ids)
  node_ch : ∀ j pre x post, (if j < M then A ++ nid :: B else ids) = pre ++ x :: post →
      j < lvlOf t x → (nodeAt t x).nexts.getD j none = firstL t j post
  new_hi : ∀ j, M ≤ j → (nodeAt t nid).nexts.getD j none = none

/-- Intermediate well formedness during the unwinding of a successful
remove_impl: rid is the removed node (the head of B, the part of ids with
keys at or above the searched key), Btail the rest of B; all levels strictly
below M are already unlinked. -/
structure PartRem (s : SkipList) (ids A Btail : List Nat) (rid : Nat)
    (t : SkipList) (M : Nat) : Prop where
  heap_len : t.heap.length = s.heap.length
  key_old : ∀ i, keyOf t i = keyOf s i
  val_old : ∀ i, valOf t i = valOf s i
  lvl_old : ∀ i, lvlOf t i = lvlOf s i
  count_t : t.count = s.count - 1
  gen_t : t.gen = s.gen
  genIdx_t : t.genIdx = s.genIdx
  hlen : t.nodes.length = s.nodes.length
  head_ch : ∀ j, t.nodes.getD j none = firstL t j (if j < M then A ++ Btail else ids)
  node_ch : ∀ j pre x post, (if j < M then A ++ Btail else ids) = pre ++ x :: post →
      j < lvlOf t x → (nodeAt t x).nexts.getD j none = firstL t j post
  rid_lo : ∀ j, j < M → j < lvlOf t rid → (nodeAt t rid).nexts.getD j none = none

/-- The same structure driven by a different level source: only the gen field
is replaced. -/
def setG (s : SkipList) (g : Nat → Bool) : SkipList := { s with gen := g }

/- A reference ordered map, modelled from the spec's words: a sorted
association list.  Insert fails and returns the pair on a present key,
search returns the stored value, remove returns the stored pair exactly when
the key is present and fails with a unit error otherwise. -/

/-- Reference map lookup. -/
def mapFind : List (Nat × Nat) → Nat → Option Nat
  | [], _ => none
  | (a, b) :: rest, k => if a = k then some b else mapFind rest k

/-- Reference map sorted insertion of an absent key. -/
def insSorted : List (Nat × Nat) → Nat → Nat → List (Nat × Nat)
  | [], k, v => [(k, v)]
  | (a, b) :: rest, k, v =>
      if k < a then (k, v) :: (a, b) :: rest else (a, b) :: insSorted rest k v

/-- Reference map insert: fails, returning the offered pair, when the key is
present. -/
def mapInsert (m : List (Nat × Nat)) (k v : Nat) :
    Except (Nat × Nat) Unit × List (Nat × Nat) :=
  match mapFind m k with
  | some _ => (Except.error (k, v), m)
  | none => (Except.ok (), insSorted m k v)

/-- Reference map remove: returns the stored pair exactly when the key is
present, otherwise fails with a unit error and changes nothing. -/
def mapRemove (m : List (Nat × Nat)) (k : Nat) :
    Except Unit (Nat × Nat) × List (Nat × Nat) :=
  match mapFind m k with
  | some v => (Except.ok (k, v), m.filter (fun p => decide (p.1 ≠ k)))
  | none => (Except.error (), m)

/-- Apply one operation to the reference map. -/
def mapStep (m : List (Nat × Nat)) : Op → List (Nat × Nat)
  | Op.ins k v => (mapInsert m k v).2
  | Op.del k => (mapRemove m k).2

/- List access helpers. -/

theorem getD_set_self {α : Type} {l : List α} {L : Nat} {v d : α} (h : L < l.length) :
    (l.set L v).getD L d = v := by
  simp [List.getD_eq_getElem?_getD, List.getElem?_set_self h]

theorem getD_set_ne {α : Type} {l : List α} {L j : Nat} {v d : α} (h : j ≠ L) :
    (l.set L v).getD j d = l.getD j d := by
  simp [List.getD_eq_getElem?_getD, List.getElem?_set_ne (Ne.symm h)]

theorem getD_oor {α : Type} {l : List α} {j : Nat} {d : α} (h : l.length ≤ j) :
    l.getD j d = d := by
  simp [List.getD_eq_getElem?_getD, List.getElem?_eq_none h]

theorem getD_append_lt {α : Type} {l1 l2 : List α} {n : Nat} {d : α} (h : n < l1.length) :
    (l1 ++ l2).getD n d = l1.getD n d := by
  simp [List.getD_eq_getElem?_getD, List.getElem?_append, h]

theorem getD_append_ge {α : Type} {l1 l2 : List α} {n : Nat} {d : α} (h : l1.length ≤ n) :
    (l1 ++ l2).getD n d = l2.getD (n - l1.length) d := by
  simp [List.getD_eq_getElem?_getD, List.getElem?_append, Nat.not_lt_of_le h]

theorem getD_replicate {α : Type} {n i : Nat} {a d : α} :
    (List.replicate n a).getD i d = if i < n then a else d := by
  by_cases h : i < n
  · simp [List.getD_eq_getElem?_getD, List.getElem?_replicate, h]
  · have hle : (List.replicate n a).length ≤ i := by simpa using Nat.le_of_not_lt h
    rw [List.getD_eq_getElem?_getD, List.getElem?_eq_none hle]
    simp [h]

/- firstL helpers. -/

theorem firstL_append_of_none {s : SkipList} {L : Nat} {l1 : List Nat} (l2 : List Nat)
    (h : firstL s L l1 = none) : firstL s L (l1 ++ l2) = firstL s L l2 := by
  induction l1 with
  | nil => simp
  | cons a t ih =>
      by_cases ha : L < lvlOf s a
      · simp [firstL, ha] at h
      · simp only [firstL, ha, if_false, List.cons_append] at h ⊢
        exact ih h

theorem firstL_append_of_some {s : SkipList} {L : Nat} {l1 : List Nat} {j : Nat}
    (l2 : List Nat) (h : firstL s L l1 = some j) :
    firstL s L (l1 ++ l2) = some j := by
  induction l1 with
  | nil => simp [firstL] at h
  | cons a t ih =>
      by_cases ha : L < lvlOf s a
      · simp only [firstL, ha, if_true] at h ⊢
        exact h
      · simp only [firstL, ha, if_false, List.cons_append] at h ⊢
        exact ih h

theorem firstL_eq_none_iff {s : SkipList} {L : Nat} {l : List Nat} :
    firstL s L l = none ↔ ∀ x ∈ l, lvlOf s x ≤ L := by
  induction l with
  | nil => simp [firstL]
  | cons a t ih =>
      by_cases ha : L < lvlOf s a
      · simp only [firstL, ha, if_true]
        constructor
        · intro h; cases h
        · intro h
          exact absurd ha (Nat.not_lt_of_le (h a (by simp)))
      · simp only [firstL, ha, if_false]
        rw [ih]
        constructor
        · intro h x hx
          rcases List.mem_cons.mp hx with rfl | hx
          · exact Nat.le_of_not_lt ha
          · exact h x hx
        · intro h x hx
          exact h x (List.mem_cons_of_mem _ hx)

theorem firstL_eq_some_split {s : SkipList} {L : Nat} {l : List Nat} {j : Nat}
    (h : firstL s L l = some j) :
    ∃ t1 t2, l = t1 ++ j :: t2 ∧ (∀ x ∈ t1, lvlOf s x ≤ L) ∧ L < lvlOf s j := by
  induction l with
  | nil => simp [firstL] at h
  | cons a t ih =>
      by_cases ha : L < lvlOf s a
      · simp only [firstL, ha, if_true, Option.some.injEq] at h
        exact ⟨[], t, by simp [h], by simp, h ▸ ha⟩
      · simp only [firstL, ha, if_false] at h
        obtain ⟨t1, t2, h1, h2, h3⟩ := ih h
        exact ⟨a :: t1, t2, by simp [h1], by
          intro x hx
          rcases List.mem_cons.mp hx with hx | hx
          · exact hx ▸ Nat.le_of_not_lt ha
          · exact h2 x hx, h3⟩

theorem firstL_mem {s : SkipList} {L : Nat} {l : List Nat} {j : Nat}
    (h : firstL s L l = some j) : j ∈ l := by
  obtain ⟨t1, t2, h1, _, _⟩ := firstL_eq_some_split h
  subst h1
  simp

theorem firstL_congr {s t : SkipList} {L : Nat} {l : List Nat}
    (h : ∀ x ∈ l, lvlOf t x = lvlOf s x) : firstL t L l = firstL s L l := by
  induction l with
  | nil => rfl
  | cons a r ih =>
      have ha : lvlOf t a = lvlOf s a := h a (by simp)
      simp only [firstL, ha]
      by_cases hc : L < lvlOf s a
      · simp [hc]
      · simp only [hc, if_false]
        exact ih (fun x hx => h x (List.mem_cons_of_mem _ hx))

theorem firstL_mid_invisible {s : SkipList} {L : Nat} {xs ys : List Nat} {n : Nat}
    (hn : lvlOf s n ≤ L) : firstL s L (xs ++ n :: ys) = firstL s L (xs ++ ys) := by
  cases h : firstL s L xs with
  | none =>
      rw [firstL_append_of_none _ h, firstL_append_of_none _ h]
      simp [firstL, Nat.not_lt_of_le hn]
  | some j =>
      rw [firstL_append_of_some _ h, firstL_append_of_some _ h]

theorem filter_of_firstL_none {s : SkipList} {L : Nat} {l : List Nat}
    (h : firstL s L l = none) : l.filter (fun i => decide (L < lvlOf s i)) = [] := by
  rw [List.filter_eq_nil_iff]
  intro x hx
  simpa using Nat.not_lt_of_le (firstL_eq_none_iff.mp h x hx)

theorem filter_invisible_prefix {s : SkipList} {L : Nat} {t1 : List Nat}
    (l2 : List Nat) (h : ∀ x ∈ t1, lvlOf s x ≤ L) :
    (t1 ++ l2).filter (fun i => decide (L < lvlOf s i)) =
      l2.filter (fun i => decide (L < lvlOf s i)) := by
  rw [List.filter_append]
  have : t1.filter (fun i => decide (L < lvlOf s i)) = [] := by
    rw [List.filter_eq_nil_iff]
    intro x hx
    simpa using Nat.not_lt_of_le (h x hx)
  rw [this, List.nil_append]


/- Frame lemmas for setF and heap extension. -/

theorem setF_gen (s : SkipList) (loc : Loc) (L : Nat) (v : Option Nat) :
    (setF s loc L v).gen = s.gen := by cases loc <;> rfl

theorem setF_genIdx (s : SkipList) (loc : Loc) (L : Nat) (v : Option Nat) :
    (setF s loc L v).genIdx = s.genIdx := by cases loc <;> rfl

theorem setF_count (s : SkipList) (loc : Loc) (L : Nat) (v : Option Nat) :
    (setF s loc L v).count = s.count := by cases loc <;> rfl

theorem setF_heap_length (s : SkipList) (loc : Loc) (L : Nat) (v : Option Nat) :
    (setF s loc L v).heap.length = s.heap.length := by
  cases loc <;> simp [setF]

theorem setF_nodes_length (s : SkipList) (loc : Loc) (L : Nat) (v : Option Nat) :
    (setF s loc L v).nodes.length = s.nodes.length := by
  cases loc <;> simp [setF]

theorem nodeAt_setF_hd (s : SkipList) (L : Nat) (v : Option Nat) (i : Nat) :
    nodeAt (setF s Loc.hd L v) i = nodeAt s i := rfl

theorem nodeAt_setF_node_ne {s : SkipList} {i j : Nat} {L : Nat} {v : Option Nat}
    (h : j ≠ i) : nodeAt (setF s (Loc.node i) L v) j = nodeAt s j := by
  simp only [nodeAt, setF]
  rw [List.getD_eq_getElem?_getD, List.getElem?_set_ne (Ne.symm h),
    ← List.getD_eq_getElem?_getD]

theorem nodeAt_setF_node_self (s : SkipList) (i L : Nat) (v : Option Nat) :
    nodeAt (setF s (Loc.node i) L v) i
      = { nodeAt s i with nexts := (nodeAt s i).nexts.set L v } := by
  simp only [nodeAt, setF]
  by_cases h : i < s.heap.length
  · exact getD_set_self h
  · have hle : s.heap.length ≤ i := Nat.le_of_not_lt h
    have e1 : s.heap.getD i ⟨0, 0, []⟩ = (⟨0, 0, []⟩ : Node) := getD_oor hle
    have e2 : (s.heap.set i { s.heap.getD i ⟨0, 0, []⟩ with
        nexts := (s.heap.getD i ⟨0, 0, []⟩).nexts.set L v }).getD i ⟨0, 0, []⟩
        = (⟨0, 0, []⟩ : Node) := getD_oor (by simpa using hle)
    rw [e2, e1]
    simp

theorem keyOf_setF (s : SkipList) (loc : Loc) (L : Nat) (v : Option Nat) (j : Nat) :
    keyOf (setF s loc L v) j = keyOf s j := by
  cases loc with
  | hd => rfl
  | node i =>
      by_cases h : j = i
      · subst h; rw [keyOf, nodeAt_setF_node_self]; rfl
      · rw [keyOf, nodeAt_setF_node_ne h]
        rfl

theorem valOf_setF (s : SkipList) (loc : Loc) (L : Nat) (v : Option Nat) (j : Nat) :
    valOf (setF s loc L v) j = valOf s j := by
  cases loc with
  | hd => rfl
  | node i =>
      by_cases h : j = i
      · subst h; rw [valOf, nodeAt_setF_node_self]; rfl
      · rw [valOf, nodeAt_setF_node_ne h]
        rfl

theorem lvlOf_setF (s : SkipList) (loc : Loc) (L : Nat) (v : Option Nat) (j : Nat) :
    lvlOf (setF s loc L v) j = lvlOf s j := by
  cases loc with
  | hd => rfl
  | node i =>
      by_cases h : j = i
      · subst h; rw [lvlOf, nodeAt_setF_node_self]; simp [lvlOf]
      · rw [lvlOf, nodeAt_setF_node_ne h]
        rfl

theorem firstL_setF (s : SkipList) (loc : Loc) (L : Nat) (v : Option Nat)
    (Lq : Nat) (l : List Nat) :
    firstL (setF s loc L v) Lq l = firstL s Lq l :=
  firstL_congr (fun x _ => lvlOf_setF s loc L v x)

theorem keyLt_setF (s : SkipList) (loc : Loc) (L : Nat) (v : Option Nat) :
    keyLt (setF s loc L v) = keyLt s := by
  funext a b
  rw [keyLt, keyLt, keyOf_setF, keyOf_setF]

theorem getF_setF_hd_hd (s : SkipList) (L : Nat) (v : Option Nat) :
    getF (setF s Loc.hd L v) Loc.hd = s.nodes.set L v := rfl

theorem getF_setF_hd_node (s : SkipList) (L : Nat) (v : Option Nat) (i : Nat) :
    getF (setF s Loc.hd L v) (Loc.node i) = getF s (Loc.node i) := rfl

theorem getF_setF_node_hd (s : SkipList) (i L : Nat) (v : Option Nat) :
    getF (setF s (Loc.node i) L v) Loc.hd = getF s Loc.hd := rfl

theorem getF_setF_node_node_ne {s : SkipList} {i j L : Nat} {v : Option Nat}
    (h : j ≠ i) : getF (setF s (Loc.node i) L v) (Loc.node j) = getF s (Loc.node j) := by
  rw [getF, nodeAt_setF_node_ne h]; rfl

theorem getF_setF_node_node_self (s : SkipList) (i L : Nat) (v : Option Nat) :
    getF (setF s (Loc.node i) L v) (Loc.node i) = (getF s (Loc.node i)).set L v := by
  rw [getF, nodeAt_setF_node_self]; rfl

theorem nodeAt_of_heap_append {t s : SkipList} {b : Node}
    (ht : t.heap = s.heap ++ [b]) {i : Nat} (h : i < s.heap.length) :
    nodeAt t i = nodeAt s i := by
  rw [nodeAt, ht, getD_append_lt h, nodeAt]

theorem nodeAt_of_heap_append_self {t s : SkipList} {b : Node}
    (ht : t.heap = s.heap ++ [b]) : nodeAt t s.heap.length = b := by
  rw [nodeAt, ht, getD_append_ge (Nat.le_refl _)]
  simp

/- Reading a forward slot at a well formed position. -/

theorem read_slot {s : SkipList} {ids : List Nat} (inv : InvWith s ids)
    {loc : Loc} {rest : List Nat} {L : Nat}
    (h : locRest s ids loc rest) (hsc : sideCond s L loc) :
    (getF s loc).getD L none = firstL s L rest := by
  cases loc with
  | hd =>
      have h' : rest = ids := h
      subst h'
      exact inv.head_ch L
  | node j =>
      obtain ⟨pre, hpre⟩ := h
      exact inv.node_ch L pre j rest hpre hsc

theorem sideCond_lt_len {s : SkipList} {L : Nat} {loc : Loc} (h : sideCond s L loc) :
    L < (getF s loc).length := by
  cases loc with
  | hd => exact h
  | node j => exact h

theorem locRest_pairwise {s : SkipList} {ids : List Nat}
    (hs : List.Pairwise (keyLt s) ids) {loc : Loc} {rest : List Nat}
    (h : locRest s ids loc rest) : List.Pairwise (keyLt s) rest := by
  cases loc with
  | hd => exact (show rest = ids from h) ▸ hs
  | node j =>
      obtain ⟨pre, hpre⟩ := h
      have := (List.pairwise_append.mp (hpre ▸ hs)).2.1
      exact this.of_cons

theorem locRest_subset {s : SkipList} {ids : List Nat} {loc : Loc} {rest : List Nat}
    (h : locRest s ids loc rest) : ∀ x ∈ rest, x ∈ ids := by
  cases loc with
  | hd => exact fun x hx => (show rest = ids from h) ▸ hx
  | node j =>
      obtain ⟨pre, hpre⟩ := h
      intro x hx
      rw [hpre]
      simp [hx]

/-- The walk of insert_impl at one level: it skips a block of nodes with keys
below k and stops at a position whose next visible node at this level either
does not exist, has key k (duplicate) or has a key above k. -/
theorem advInsert_spec {s : SkipList} {ids : List Nat} (inv : InvWith s ids) (k L : Nat) :
    ∀ fuel loc rest, locRest s ids loc rest → sideCond s L loc → rest.length < fuel →
    ∃ skipped loc2 rest2,
      rest = skipped ++ rest2 ∧ (∀ x ∈ skipped, keyOf s x < k) ∧
      locRest s ids loc2 rest2 ∧ sideCond s L loc2 ∧
      ((firstL s L rest2 = none ∧ advInsert s k L fuel loc = Adv.stop loc2) ∨
       (∃ j, firstL s L rest2 = some j ∧ keyOf s j = k ∧
          advInsert s k L fuel loc = Adv.dup loc2) ∨
       (∃ j, firstL s L rest2 = some j ∧ k < keyOf s j ∧
          advInsert s k L fuel loc = Adv.stop loc2)) := by
  intro fuel
  induction fuel with
  | zero =>
      intro loc rest _ _ h
      exact absurd h (Nat.not_lt_zero _)
  | succ fuel ih =>
      intro loc rest hlr hsc hlen
      have hread : (getF s loc).getD L none = firstL s L rest := read_slot inv hlr hsc
      have hlt : L < (getF s loc).length := sideCond_lt_len hsc
      cases hfl : firstL s L rest with
      | none =>
          have heq : advInsert s k L (fuel + 1) loc = Adv.stop loc := by
            simp only [advInsert, if_pos hlt, hread, hfl]
          exact ⟨[], loc, rest, by simp, by simp, hlr, hsc, Or.inl ⟨hfl, heq⟩⟩
      | some j =>
          by_cases hjk : keyOf s j = k
          · have heq : advInsert s k L (fuel + 1) loc = Adv.dup loc := by
              simp only [advInsert, if_pos hlt, hread, hfl]
              simp [hjk]
            exact ⟨[], loc, rest, by simp, by simp, hlr, hsc,
              Or.inr (Or.inl ⟨j, hfl, hjk, heq⟩)⟩
          · by_cases hjlt : keyOf s j < k
            · obtain ⟨t1, t2, hrest, ht1, hvj⟩ := firstL_eq_some_split hfl
              have hlr2 : locRest s ids (Loc.node j) t2 := by
                cases loc with
                | hd =>
                    have h' : rest = ids := hlr
                    exact ⟨t1, by rw [← h', hrest]⟩
                | node j0 =>
                    obtain ⟨pre, hpre⟩ := hlr
                    exact ⟨pre ++ j0 :: t1, by rw [hpre, hrest]; simp⟩
              have hsc2 : sideCond s L (Loc.node j) := hvj
              have hlen2 : t2.length < fuel := by
                rw [hrest] at hlen
                simp at hlen
                omega
              obtain ⟨sk2, loc2, rest2, hsp, hks, hlr3, hsc3, hres⟩ :=
                ih (Loc.node j) t2 hlr2 hsc2 hlen2
              have heq : advInsert s k L (fuel + 1) loc = advInsert s k L fuel (Loc.node j) := by
                simp only [advInsert, if_pos hlt, hread, hfl]
                simp [hjk, hjlt]
              refine ⟨t1 ++ j :: sk2, loc2, rest2, ?_, ?_, hlr3, hsc3, ?_⟩
              · rw [hrest, hsp]; simp
              · intro x hx
                rcases (by simpa using hx : x ∈ t1 ∨ x = j ∨ x ∈ sk2) with h1 | h1 | h1
                · have hp : List.Pairwise (keyLt s) rest :=
                    locRest_pairwise inv.sorted hlr
                  rw [hrest] at hp
                  have h2 : keyLt s x j := (List.pairwise_append.mp hp).2.2 x h1 j (by simp)
                  exact Nat.lt_trans h2 hjlt
                · exact h1 ▸ hjlt
                · exact hks x h1
              · rw [heq]
                exact hres
            · have hgt : k < keyOf s j :=
                Nat.lt_of_le_of_ne (Nat.le_of_not_lt hjlt) (fun h => hjk h.symm)
              have heq : advInsert s k L (fuel + 1) loc = Adv.stop loc := by
                simp only [advInsert, if_pos hlt, hread, hfl]
                simp [hjk, hjlt]
              exact ⟨[], loc, rest, by simp, by simp, hlr, hsc,
                Or.inr (Or.inr ⟨j, hfl, hgt, heq⟩)⟩

/-- The walk of remove_impl coincides with the walk of insert_impl, with the
duplicate outcome collapsed into a stop. -/
theorem advRemove_eq_advInsert (s : SkipList) (k L : Nat) :
    ∀ fuel loc, advRemove s k L fuel loc =
      (match advInsert s k L fuel loc with
       | Adv.stop l => AdvR.stop l
       | Adv.dup l => AdvR.stop l
       | Adv.assertFail => AdvR.assertFail
       | Adv.fuelOut => AdvR.fuelOut) := by
  intro fuel
  induction fuel with
  | zero => intro loc; rfl
  | succ fuel ih =>
      intro loc
      by_cases hlt : L < (getF s loc).length
      · cases hg : (getF s loc).getD L none with
        | none => simp only [advRemove, advInsert, if_pos hlt, hg]
        | some j =>
            by_cases hjk : keyOf s j = k
            · have hle : k ≤ keyOf s j := Nat.le_of_eq hjk.symm
              simp only [advRemove, advInsert, if_pos hlt, hg]
              simp [hjk, hle]
            · by_cases hjlt : keyOf s j < k
              · have hnle : ¬ k ≤ keyOf s j := Nat.not_le_of_lt hjlt
                simp only [advRemove, advInsert, if_pos hlt, hg]
                simp [hjk, hjlt, hnle]
                exact ih (Loc.node j)
              · have hle : k ≤ keyOf s j := Nat.le_of_not_lt hjlt
                simp only [advRemove, advInsert, if_pos hlt, hg]
                simp [hjk, hjlt, hle]
      · simp only [advRemove, advInsert, if_neg hlt]

/-- The walk of search coincides with the walk of insert_impl wherever the
latter does not fail. -/
theorem advSearch_of_advInsert {s : SkipList} {k L : Nat} :
    ∀ fuel loc l, (advInsert s k L fuel loc = Adv.stop l ∨
        advInsert s k L fuel loc = Adv.dup l) →
      advSearch s k L fuel loc = some l := by
  intro fuel
  induction fuel with
  | zero =>
      intro loc l h
      rcases h with h | h <;> simp [advInsert] at h
  | succ fuel ih =>
      intro loc l h
      by_cases hlt : L < (getF s loc).length
      · cases hg : (getF s loc).getD L none with
        | none =>
            simp only [advInsert, if_pos hlt, hg] at h
            rcases h with h | h
            · cases h
              simp only [advSearch, hg]
            · cases h
        | some j =>
            by_cases hjk : keyOf s j = k
            · simp only [advInsert, if_pos hlt, hg] at h
              simp only [hjk, if_pos rfl] at h
              rcases h with h | h
              · cases h
              · cases h
                have hle : k ≤ keyOf s j := Nat.le_of_eq hjk.symm
                simp only [advSearch, hg]
                rw [if_pos hle]
            · by_cases hjlt : keyOf s j < k
              · have hnle : ¬ k ≤ keyOf s j := Nat.not_le_of_lt hjlt
                simp only [advInsert, if_pos hlt, hg] at h
                simp only [hjk, if_false, hjlt, if_true, if_neg, if_pos] at h
                simp only [advSearch, hg]
                rw [if_neg hnle]
                apply ih
                simpa [hjk, hjlt] using h
              · have hle : k ≤ keyOf s j := Nat.le_of_not_lt hjlt
                simp only [advInsert, if_pos hlt, hg] at h
                simp only [hjk, hjlt, if_false] at h
                rcases h with h | h
                · cases h
                  simp only [advSearch, hg]
                  rw [if_pos hle]
                · cases h
      · simp only [advInsert, if_neg hlt] at h
        rcases h with h | h <;> cases h

/- Characterisation of the level draw. -/

theorem genLoop_ge (g : Nat → Bool) (limit : Nat) :
    ∀ fuel idx size, size ≤ (genLoop g limit fuel idx size).1 := by
  intro fuel
  induction fuel with
  | zero => intro idx size; exact Nat.le_refl _
  | succ fuel ih =>
      intro idx size
      simp only [genLoop]
      by_cases h : size < limit
      · rw [if_pos h]
        by_cases hg : g idx
        · rw [if_pos hg]
          exact Nat.le_trans (Nat.le_succ _) (ih (idx + 1) (size + 1))
        · rw [if_neg hg]
      · rw [if_neg h]

theorem genLoop_le (g : Nat → Bool) (limit : Nat) :
    ∀ fuel idx size, (genLoop g limit fuel idx size).1 ≤ max size limit := by
  intro fuel
  induction fuel with
  | zero => intro idx size; exact Nat.le_max_left _ _
  | succ fuel ih =>
      intro idx size
      simp only [genLoop]
      by_cases h : size < limit
      · rw [if_pos h]
        by_cases hg : g idx
        · rw [if_pos hg]
          refine Nat.le_trans (ih (idx + 1) (size + 1)) ?_
          have : max (size + 1) limit = limit := Nat.max_eq_right h
          rw [this]
          exact Nat.le_max_right _ _
        · rw [if_neg hg]; exact Nat.le_max_left _ _
      · rw [if_neg h]; exact Nat.le_max_left _ _

theorem genLoop_eq_capTrues (g : Nat → Bool) (limit : Nat) :
    ∀ fuel idx size, limit - size ≤ fuel →
      genLoop g limit fuel idx size =
        (size + capTrues g (limit - size) idx,
         idx + capTrues g (limit - size) idx
           + (if capTrues g (limit - size) idx < limit - size then 1 else 0)) := by
  intro fuel
  induction fuel with
  | zero =>
      intro idx size h
      have h0 : limit - size = 0 := Nat.le_zero.mp h
      simp [genLoop, h0, capTrues]
  | succ fuel ih =>
      intro idx size h
      simp only [genLoop]
      by_cases hlt : size < limit
      · rw [if_pos hlt]
        have hd : limit - size = (limit - (size + 1)) + 1 := by omega
        by_cases hg : g idx
        · rw [if_pos hg]
          rw [ih (idx + 1) (size + 1) (by omega)]
          rw [hd]
          simp only [capTrues, hg, if_pos]
          rw [Prod.mk.injEq]
          refine ⟨by omega, ?_⟩
          by_cases hc : capTrues g (limit - (size + 1)) (idx + 1) < limit - (size + 1)
          · rw [if_pos hc, if_pos (by omega)]
            omega
          · rw [if_neg hc, if_neg (by omega)]
            omega
        · rw [if_neg hg]
          rw [hd]
          simp only [capTrues, hg]
          simp
      · rw [if_neg hlt]
        have h0 : limit - size = 0 := by omega
        simp [h0, capTrues]

/- Characterisation of the bit length. -/

theorem bitLenF_zero : ∀ fuel, bitLenF fuel 0 = 0 := by
  intro fuel
  cases fuel <;> rfl

theorem bitLenF_congr : ∀ n fuel fuel2, n ≤ fuel → n ≤ fuel2 →
    bitLenF fuel n = bitLenF fuel2 n := by
  intro n
  induction n using Nat.strong_induction_on with
  | _ n ih =>
      intro fuel fuel2 h h2
      cases n with
      | zero => rw [bitLenF_zero, bitLenF_zero]
      | succ m =>
          cases fuel with
          | zero => exact absurd h (by omega)
          | succ f =>
              cases fuel2 with
              | zero => exact absurd h2 (by omega)
              | succ f2 =>
                  simp only [bitLenF, Nat.succ_ne_zero, if_false]
                  have hlt : (m + 1) / 2 < m + 1 := Nat.div_lt_self (by omega) (by omega)
                  rw [ih ((m + 1) / 2) hlt f f2 (by omega) (by omega)]

theorem bitLen_succ_div2 (n : Nat) (h : 1 ≤ n) : bitLen n = bitLen (n / 2) + 1 := by
  cases n with
  | zero => exact absurd h (by omega)
  | succ m =>
      have e1 : bitLen (m + 1) = bitLenF m ((m + 1) / 2) + 1 := by
        show bitLenF (m + 1) (m + 1) = _
        simp only [bitLenF, Nat.succ_ne_zero, if_false]
      have e2 : bitLenF m ((m + 1) / 2) = bitLen ((m + 1) / 2) :=
        bitLenF_congr ((m + 1) / 2) m ((m + 1) / 2) (by omega) (Nat.le_refl _)
      rw [e1, e2]

theorem bitLen_pos {n : Nat} (h : 1 ≤ n) : 1 ≤ bitLen n := by
  rw [bitLen_succ_div2 n h]
  omega

theorem bitLen_bounds : ∀ n, 1 ≤ n → 2 ^ (bitLen n - 1) ≤ n ∧ n < 2 ^ bitLen n := by
  intro n
  induction n using Nat.strong_induction_on with
  | _ n ih =>
      intro h1
      by_cases h2 : n ≤ 1
      · have : n = 1 := by omega
        subst this
        constructor
        · show 2 ^ (bitLen 1 - 1) ≤ 1
          have e : bitLen 1 = 1 := rfl
          rw [e]
          norm_num
        · show 1 < 2 ^ bitLen 1
          have e : bitLen 1 = 1 := rfl
          rw [e]
          norm_num
      · have hn2 : 2 ≤ n := by omega
        have hd : 1 ≤ n / 2 := by
          have := Nat.div_le_div_right (c := 2) hn2
          simpa using this
        have hlt : n / 2 < n := Nat.div_lt_self (by omega) (by omega)
        obtain ⟨ihl, ihr⟩ := ih (n / 2) hlt hd
        have hb : bitLen n = bitLen (n / 2) + 1 := bitLen_succ_div2 n h1
        have hbp : 1 ≤ bitLen (n / 2) := bitLen_pos hd
        constructor
        · rw [hb]
          have : 2 ^ (bitLen (n / 2) + 1 - 1) = 2 * 2 ^ (bitLen (n / 2) - 1) := by
            rw [Nat.add_sub_cancel]
            conv_lhs => rw [show bitLen (n / 2) = (bitLen (n / 2) - 1) + 1 by omega]
            rw [Nat.pow_succ]
            omega
          rw [this]
          calc 2 * 2 ^ (bitLen (n / 2) - 1) ≤ 2 * (n / 2) := by
                exact Nat.mul_le_mul_left 2 ihl
            _ ≤ n := Nat.mul_div_le n 2
        · rw [hb, Nat.pow_succ]
          have hne : n < 2 * (n / 2) + 2 := by
            have := Nat.mod_two_eq_zero_or_one n
            have h3 := Nat.div_add_mod n 2
            omega
          have : 2 * (n / 2) + 2 ≤ 2 ^ bitLen (n / 2) * 2 := by
            have : n / 2 + 1 ≤ 2 ^ bitLen (n / 2) := ihr
            omega
          omega

theorem bitLen_eq_log (n : Nat) (h : 1 ≤ n) : bitLen n = Nat.log 2 n + 1 := by
  obtain ⟨hl, hr⟩ := bitLen_bounds n h
  have hp : 1 ≤ bitLen n := bitLen_pos h
  have hle : Nat.log 2 n = bitLen n - 1 := by
    refine Nat.log_eq_of_pow_le_of_lt_pow hl ?_
    have e : bitLen n - 1 + 1 = bitLen n := by omega
    rw [e]
    exact hr
  omega

/- Facts about the drawn level. -/

theorem newLvl_pos (s : SkipList) : 1 ≤ newLvl s :=
  genLoop_ge s.gen (bitLen s.count) (bitLen s.count) s.genIdx 1

theorem newLvl_le_max (s : SkipList) : newLvl s ≤ max 1 (bitLen s.count) :=
  genLoop_le s.gen (bitLen s.count) (bitLen s.count) s.genIdx 1

theorem newLvl_eq_capTrues (s : SkipList) :
    newLvl s = 1 + capTrues s.gen (bitLen s.count - 1) s.genIdx := by
  have h := genLoop_eq_capTrues s.gen (bitLen s.count) (bitLen s.count) s.genIdx 1
    (by omega)
  rw [newLvl, h]

theorem newGI_eq_capTrues (s : SkipList) :
    newGI s = s.genIdx + capTrues s.gen (bitLen s.count - 1) s.genIdx
      + (if capTrues s.gen (bitLen s.count - 1) s.genIdx < bitLen s.count - 1
          then 1 else 0) := by
  have h := genLoop_eq_capTrues s.gen (bitLen s.count) (bitLen s.count) s.genIdx 1
    (by omega)
  rw [newGI, h]

theorem newLvl_of_small {s : SkipList} (h : s.count ≤ 1) : newLvl s = 1 := by
  have hb : bitLen s.count - 1 = 0 := by
    rcases Nat.le_one_iff_eq_zero_or_eq_one.mp h with h0 | h0 <;> rw [h0] <;> decide
  rw [newLvl_eq_capTrues, hb]
  rfl

theorem newGI_of_small {s : SkipList} (h : s.count ≤ 1) : newGI s = s.genIdx := by
  have hb : bitLen s.count - 1 = 0 := by
    rcases Nat.le_one_iff_eq_zero_or_eq_one.mp h with h0 | h0 <;> rw [h0] <;> decide
  rw [newGI_eq_capTrues, hb]
  simp [capTrues]

/- Structural helpers for the preservation proofs. -/

theorem sorted_nodup {s : SkipList} {l : List Nat}
    (h : List.Pairwise (keyLt s) l) : l.Nodup :=
  h.imp (fun {a b} hab => by
    intro hEq
    rw [keyLt, hEq] at hab
    exact Nat.lt_irrefl _ hab)

theorem nodup_length_le {l : List Nat} {n : Nat} (hn : l.Nodup)
    (hv : ∀ x ∈ l, x < n) : l.length ≤ n := by
  classical
  have h1 : l.toFinset.card = l.length := List.toFinset_card_of_nodup hn
  have h2 : l.toFinset ⊆ Finset.range n := by
    intro x hx
    rw [List.mem_toFinset] at hx
    exact Finset.mem_range.mpr (hv x hx)
  have := Finset.card_le_card h2
  rw [h1, Finset.card_range] at this
  exact this

theorem ids_length_le {s : SkipList} {ids : List Nat} (inv : InvWith s ids) :
    ids.length ≤ s.heap.length :=
  nodup_length_le (sorted_nodup inv.sorted) inv.valid

theorem locRest_length_le {s : SkipList} {ids : List Nat} {loc : Loc} {rest : List Nat}
    (h : locRest s ids loc rest) : rest.length ≤ ids.length := by
  cases loc with
  | hd => exact Nat.le_of_eq (congrArg List.length (h : rest = ids))
  | node j =>
      obtain ⟨pre, hpre⟩ := h
      rw [hpre]
      simp
      omega

theorem sideCond_down {s : SkipList} {L : Nat} {loc : Loc}
    (h : sideCond s (L + 1) loc) : sideCond s L loc := by
  cases loc with
  | hd => exact Nat.lt_of_le_of_lt (Nat.le_succ L) h
  | node j => exact Nat.lt_of_le_of_lt (Nat.le_succ L) h

theorem sandwich {A B gpre rest : List Nat} (P : Nat → Prop)
    (h : A ++ B = gpre ++ rest) (hg : ∀ x ∈ gpre, P x) (hB : ∀ x ∈ B, ¬ P x) :
    ∃ mid, A = gpre ++ mid ∧ rest = mid ++ B := by
  rcases List.append_eq_append_iff.mp h with ⟨a2, ha1, ha2⟩ | ⟨c2, hc1, hc2⟩
  · cases a2 with
    | nil =>
        refine ⟨[], by simpa using ha1.symm, ?_⟩
        simpa using ha2.symm
    | cons x xs =>
        exfalso
        have hx1 : P x := hg x (by rw [ha1]; simp)
        have hx2 : ¬ P x := hB x (by rw [ha2]; simp)
        exact hx2 hx1
  · exact ⟨c2, hc1, hc2⟩

theorem decomp3 {A B pre post : List Nat} {n x : Nat}
    (h : A ++ n :: B = pre ++ x :: post) :
    (∃ A2, A = pre ++ x :: A2 ∧ post = A2 ++ n :: B) ∨
    (x = n ∧ pre = A ∧ post = B) ∨
    (∃ B1, B = B1 ++ x :: post ∧ pre = A ++ n :: B1) := by
  rcases List.append_eq_append_iff.mp h with ⟨a2, ha1, ha2⟩ | ⟨c2, hc1, hc2⟩
  · cases a2 with
    | nil =>
        simp only [List.append_nil] at ha1
        have h2 : n :: B = x :: post := by simpa using ha2
        injection h2 with hx hB
        exact Or.inr (Or.inl ⟨hx.symm, ha1, hB.symm⟩)
    | cons y ys =>
        have h2 : n :: B = y :: (ys ++ x :: post) := by simpa using ha2
        injection h2 with hy hB
        subst hy
        exact Or.inr (Or.inr ⟨ys, hB, by rw [ha1]⟩)
  · cases c2 with
    | nil =>
        simp only [List.append_nil] at hc1
        have h2 : x :: post = n :: B := by simpa using hc2
        injection h2 with hx hB
        exact Or.inr (Or.inl ⟨hx, hc1.symm, hB⟩)
    | cons y ys =>
        have h2 : x :: post = y :: (ys ++ n :: B) := by simpa using hc2
        injection h2 with hx hpost
        subst hx
        exact Or.inl ⟨ys, hc1, hpost⟩

theorem nodup_decomp_unique {l p1 q1 p2 q2 : List Nat} {x : Nat} (hn : l.Nodup)
    (h1 : l = p1 ++ x :: q1) (h2 : l = p2 ++ x :: q2) : p1 = p2 ∧ q1 = q2 := by
  have h := h1.symm.trans h2
  rcases List.append_eq_append_iff.mp h with ⟨a2, ha1, ha2⟩ | ⟨c2, hc1, hc2⟩
  · cases a2 with
    | nil =>
        simp only [List.append_nil] at ha1
        have h3 : x :: q1 = x :: q2 := by simpa using ha2
        injection h3 with _ hq
        exact ⟨ha1.symm, hq⟩
    | cons y ys =>
        exfalso
        have h3 : x :: q1 = y :: (ys ++ x :: q2) := by simpa using ha2
        injection h3 with hxy hq
        subst hxy
        rw [h2, ha1] at hn
        exact (List.disjoint_of_nodup_append hn)
          (show x ∈ p1 ++ x :: ys by simp) (show x ∈ x :: q2 by simp)
  · cases c2 with
    | nil =>
        simp only [List.append_nil] at hc1
        have h3 : x :: q2 = x :: q1 := by simpa using hc2
        injection h3 with _ hq
        exact ⟨hc1, hq.symm⟩
    | cons y ys =>
        exfalso
        have h3 : x :: q2 = y :: (ys ++ x :: q1) := by simpa using hc2
        injection h3 with hxy hq
        subst hxy
        rw [h1, hc1] at hn
        exact (List.disjoint_of_nodup_append hn)
          (show x ∈ p2 ++ x :: ys by simp) (show x ∈ x :: q1 by simp)

theorem firstL_append_visible {s : SkipList} {L : Nat} {j0 : Nat}
    (h : L < lvlOf s j0) (xs ys zs : List Nat) :
    firstL s L (xs ++ j0 :: ys) = firstL s L (xs ++ j0 :: zs) := by
  cases hx : firstL s L xs with
  | none =>
      rw [firstL_append_of_none _ hx, firstL_append_of_none _ hx]
      simp [firstL, h]
  | some j =>
      rw [firstL_append_of_some _ hx, firstL_append_of_some _ hx]

theorem visible_gt_of_break {s : SkipList} {rest2 : List Nat} {L k : Nat}
    (hp : List.Pairwise (keyLt s) rest2)
    (h : firstL s L rest2 = none ∨ ∃ j, firstL s L rest2 = some j ∧ k < keyOf s j) :
    ∀ y ∈ rest2, L < lvlOf s y → k < keyOf s y := by
  intro y hy hvy
  rcases h with h | ⟨j, hj, hjk⟩
  · exact absurd (firstL_eq_none_iff.mp h y hy) (Nat.not_le_of_lt hvy)
  · obtain ⟨t1, t2, hsp, ht1, _⟩ := firstL_eq_some_split hj
    rw [hsp] at hy hp
    rcases List.mem_append.mp hy with hy1 | hy2
    · exact absurd (ht1 y hy1) (Nat.not_le_of_lt hvy)
    · rcases List.mem_cons.mp hy2 with rfl | hy3
      · exact hjk
      · have := (List.pairwise_append.mp hp).2.1
        have h2 : keyLt s j y := (List.rel_of_pairwise_cons this) hy3
        exact Nat.lt_trans hjk h2

theorem alloc_eq (s : SkipList) (k v : Nat) :
    alloc s k v = (s.heap.length,
      { s with heap := s.heap ++ [⟨k, v, List.replicate (newLvl s) none⟩],
               genIdx := newGI s }) := rfl

theorem splice_eq (s : SkipList) (nid : Nat) (loc : Loc) (L : Nat) :
    splice s nid loc L =
      setF (setF s (Loc.node nid) L ((getF s loc).getD L none)) loc L (some nid) := rfl

/- Establishing the intermediate insert invariant at level 0 (before any
splice) and raising its level bound. -/

theorem PartIns_base {s t0 : SkipList} {ids : List Nat} (inv : InvWith s ids)
    (k v : Nat) (A B : List Nat)
    (h1 : t0.heap = s.heap ++ [⟨k, v, List.replicate (newLvl s) none⟩])
    (h2 : t0.nodes = s.nodes) (h3 : t0.count = s.count + 1)
    (h4 : t0.genIdx = newGI s) (h5 : t0.gen = s.gen) :
    PartIns s ids A B k v s.heap.length t0 0 := by
  have hold : ∀ i, i < s.heap.length → nodeAt t0 i = nodeAt s i := by
    intro i hi
    exact nodeAt_of_heap_append h1 hi
  have hnew : nodeAt t0 s.heap.length = ⟨k, v, List.replicate (newLvl s) none⟩ :=
    nodeAt_of_heap_append_self h1
  have hlvlc : ∀ x ∈ ids, lvlOf t0 x = lvlOf s x := by
    intro x hx
    rw [lvlOf, lvlOf, hold x (inv.valid x hx)]
  refine ⟨by rw [h1]; simp, ?_, ?_, ?_, ?_, ?_, ?_, h3, h5, h4, by rw [h2], ?_, ?_, ?_⟩
  · intro i hi; rw [keyOf, keyOf, hold i hi]
  · intro i hi; rw [valOf, valOf, hold i hi]
  · intro i hi; rw [lvlOf, lvlOf, hold i hi]
  · rw [keyOf, hnew]
  · rw [valOf, hnew]
  · rw [lvlOf, hnew]; simp
  · intro j
    simp only [Nat.not_lt_zero, if_false]
    rw [h2, inv.head_ch j]
    exact (firstL_congr (fun x hx => hlvlc x hx)).symm
  · intro j pre x post hdec hlvl
    simp only [Nat.not_lt_zero, if_false] at hdec
    have hx : x ∈ ids := by rw [hdec]; simp
    have hnx : nodeAt t0 x = nodeAt s x := hold x (inv.valid x hx)
    rw [hnx]
    have hlvl2 : j < lvlOf s x := by
      rw [lvlOf] at hlvl ⊢
      rw [hnx] at hlvl
      exact hlvl
    rw [inv.node_ch j pre x post hdec hlvl2]
    refine (firstL_congr ?_).symm
    intro y hy
    exact hlvlc y (by rw [hdec]; simp [hy])
  · intro j _
    rw [hnew]
    show (List.replicate (newLvl s) none).getD j none = none
    rw [getD_replicate]
    simp

theorem PartIns_up {s t : SkipList} {ids A B : List Nat} {k v M : Nat}
    (inv : InvWith s ids) (hAB : ids = A ++ B)
    (hpi : PartIns s ids A B k v s.heap.length t M)
    (hlvl : newLvl s ≤ M) :
    PartIns s ids A B k v s.heap.length t (M + 1) := by
  have hlvlnid : lvlOf t s.heap.length = newLvl s := hpi.lvl_new
  refine ⟨hpi.heap_len, hpi.key_old, hpi.val_old, hpi.lvl_old, hpi.key_new,
    hpi.val_new, hpi.lvl_new, hpi.count_t, hpi.gen_t, hpi.genIdx_t, hpi.hlen,
    ?_, ?_, ?_⟩
  · intro j
    by_cases hj : j < M
    · have hj2 : j < M + 1 := by omega
      have := hpi.head_ch j
      rw [if_pos hj] at this
      rw [if_pos hj2]
      exact this
    · by_cases hjM : j = M
      · subst hjM
        have := hpi.head_ch j
        rw [if_neg hj] at this
        rw [if_pos (by omega), this, hAB]
        exact (firstL_mid_invisible (by rw [hlvlnid]; exact hlvl)).symm
      · have hj2 : ¬ j < M + 1 := by omega
        have := hpi.head_ch j
        rw [if_neg hj] at this
        rw [if_neg hj2]
        exact this
  · intro j pre x post hdec hlvl2
    by_cases hj : j < M
    · have hj2 : j < M + 1 := by omega
      rw [if_pos hj2] at hdec
      refine hpi.node_ch j pre x post ?_ hlvl2
      rw [if_pos hj]
      exact hdec
    · by_cases hjM : j = M
      · subst hjM
        rw [if_pos (by omega)] at hdec
        rcases decomp3 hdec with ⟨A2, hA2, hpost⟩ | ⟨hxn, hpre, hpost⟩ |
            ⟨B1, hB1, hpre⟩
        · have hids : ids = pre ++ x :: (A2 ++ B) := by
            rw [hAB, hA2]
            simp
          have hval := hpi.node_ch j pre x (A2 ++ B) (by rw [if_neg hj]; exact hids) hlvl2
          rw [hpost, hval]
          exact (firstL_mid_invisible (by rw [hlvlnid]; exact hlvl)).symm
        · exfalso
          rw [hxn, hlvlnid] at hlvl2
          omega
        · have hids : ids = (A ++ B1) ++ x :: post := by
            rw [hAB, hB1]
            simp
          exact hpi.node_ch j (A ++ B1) x post (by rw [if_neg hj]; exact hids) hlvl2
      · have hj2 : ¬ j < M + 1 := by omega
        rw [if_neg hj2] at hdec
        refine hpi.node_ch j pre x post ?_ hlvl2
        rw [if_neg hj]
        exact hdec
  · intro j hj
    exact hpi.new_hi j (by omega)

/- The splice step of the insert invariant: level M predecessor is the head
vector. -/

theorem PartIns_splice_hd {s t : SkipList} {ids A B : List Nat} {k v M : Nat}
    (inv : InvWith s ids) (hAB : ids = A ++ B)
    (hA : ∀ x ∈ A, keyOf s x < k) (hB : ∀ x ∈ B, k < keyOf s x)
    (hpi : PartIns s ids A B k v s.heap.length t M)
    (hM : M < newLvl s) (hsc : sideCond s M Loc.hd)
    (hbreak : ∀ y ∈ ids, M < lvlOf s y → k < keyOf s y) :
    PartIns s ids A B k v s.heap.length (splice t s.heap.length Loc.hd M) (M + 1) := by
  have hlvlts : ∀ x ∈ ids, lvlOf t x = lvlOf s x := fun x hx =>
    hpi.lvl_old x (inv.valid x hx)
  have hlvlnid : lvlOf t s.heap.length = newLvl s := hpi.lvl_new
  have hAlow : ∀ x ∈ A, lvlOf s x ≤ M := by
    intro x hx
    by_contra hcon
    have h1 := hbreak x (by rw [hAB]; simp [hx]) (Nat.lt_of_not_le hcon)
    exact Nat.lt_irrefl _ (Nat.lt_trans h1 (hA x hx))
  have hAlowT : ∀ x ∈ A, lvlOf t x ≤ M := by
    intro x hx
    rw [hlvlts x (by rw [hAB]; simp [hx])]
    exact hAlow x hx
  have ha : (getF t Loc.hd).getD M none = firstL t M ids := by
    have := hpi.head_ch M
    rw [if_neg (Nat.lt_irrefl M)] at this
    exact this
  have haB : (getF t Loc.hd).getD M none = firstL t M B := by
    rw [ha, hAB, firstL_append_of_none B (firstL_eq_none_iff.mpr hAlowT)]
  rw [splice_eq]
  have hfc : ∀ (Lq : Nat) (l : List Nat),
      firstL (setF (setF t (Loc.node s.heap.length) M ((getF t Loc.hd).getD M none))
        Loc.hd M (some s.heap.length)) Lq l = firstL t Lq l := by
    intro Lq l
    rw [firstL_setF, firstL_setF]
  have hnodeAt : ∀ x, nodeAt (setF (setF t (Loc.node s.heap.length) M
      ((getF t Loc.hd).getD M none)) Loc.hd M (some s.heap.length)) x
      = nodeAt (setF t (Loc.node s.heap.length) M ((getF t Loc.hd).getD M none)) x :=
    fun x => nodeAt_setF_hd _ _ _ _
  have hnewNexts : nodeAt (setF t (Loc.node s.heap.length) M
      ((getF t Loc.hd).getD M none)) s.heap.length
      = { nodeAt t s.heap.length with
          nexts := (nodeAt t s.heap.length).nexts.set M ((getF t Loc.hd).getD M none) } :=
    nodeAt_setF_node_self t _ M _
  have holdAt : ∀ x, x ≠ s.heap.length →
      nodeAt (setF t (Loc.node s.heap.length) M ((getF t Loc.hd).getD M none)) x
      = nodeAt t x := fun x hx => nodeAt_setF_node_ne hx
  have hMlen : M < t.nodes.length := by
    rw [hpi.hlen]
    exact hsc
  have hnidset : ∀ x ∈ ids, x ≠ s.heap.length := fun x hx =>
    Nat.ne_of_lt (inv.valid x hx)
  refine ⟨?_, ?_, ?_, ?_, ?_, ?_, ?_, ?_, ?_, ?_, ?_, ?_, ?_, ?_⟩
  · rw [setF_heap_length, setF_heap_length]; exact hpi.heap_len
  · intro i hi; rw [keyOf_setF, keyOf_setF]; exact hpi.key_old i hi
  · intro i hi; rw [valOf_setF, valOf_setF]; exact hpi.val_old i hi
  · intro i hi; rw [lvlOf_setF, lvlOf_setF]; exact hpi.lvl_old i hi
  · rw [keyOf_setF, keyOf_setF]; exact hpi.key_new
  · rw [valOf_setF, valOf_setF]; exact hpi.val_new
  · rw [lvlOf_setF, lvlOf_setF]; exact hpi.lvl_new
  · rw [setF_count, setF_count]; exact hpi.count_t
  · rw [setF_gen, setF_gen]; exact hpi.gen_t
  · rw [setF_genIdx, setF_genIdx]; exact hpi.genIdx_t
  · rw [setF_nodes_length, setF_nodes_length]; exact hpi.hlen
  · -- head links
    intro j
    have hnodes : (setF (setF t (Loc.node s.heap.length) M ((getF t Loc.hd).getD M none))
        Loc.hd M (some s.heap.length)).nodes
        = t.nodes.set M (some s.heap.length) := rfl
    by_cases hjM : j = M
    · subst hjM
      rw [hnodes, getD_set_self hMlen, if_pos (by omega), hfc]
      have h1 : firstL t j (A ++ s.heap.length :: B)
          = firstL t j (s.heap.length :: B) :=
        firstL_append_of_none _ (firstL_eq_none_iff.mpr hAlowT)
      rw [h1]
      have h2 : j < lvlOf t s.heap.length := by rw [hlvlnid]; exact hM
      simp [firstL, h2]
    · rw [hnodes, getD_set_ne hjM, hfc]
      by_cases hj : j < M
      · have := hpi.head_ch j
        rw [if_pos hj] at this
        rw [if_pos (by omega)]
        exact this
      · have := hpi.head_ch j
        rw [if_neg hj] at this
        rw [if_neg (by omega)]
        exact this
  · -- node links
    intro j pre x post hdec hlvl2
    have hlvl2' : j < lvlOf t x := by
      rw [lvlOf_setF, lvlOf_setF] at hlvl2
      exact hlvl2
    rw [hnodeAt, hfc]
    by_cases hjM : j = M
    · subst hjM
      rw [if_pos (by omega)] at hdec
      rcases decomp3 hdec with ⟨A2, hA2, hpost⟩ | ⟨hxn, hpre, hpost⟩ |
          ⟨B1, hB1, hpre⟩
      · exfalso
        have hxA : x ∈ A := by rw [hA2]; simp
        exact absurd (hAlowT x hxA) (Nat.not_le_of_lt hlvl2')
      · subst hxn
        rw [hnewNexts]
        have hlt : j < (nodeAt t s.heap.length).nexts.length := by
          show j < lvlOf t s.heap.length
          rw [hlvlnid]; exact hM
        show ((nodeAt t s.heap.length).nexts.set j _).getD j none = _
        rw [getD_set_self hlt, hpost, haB]
      · have hxB : x ∈ B := by rw [hB1]; simp
        have hxne : x ≠ s.heap.length := hnidset x (by rw [hAB]; simp [hxB])
        rw [holdAt x hxne]
        have hids : ids = (A ++ B1) ++ x :: post := by
          rw [hAB, hB1]; simp
        exact hpi.node_ch j (A ++ B1) x post
          (by rw [if_neg (Nat.lt_irrefl j)]; exact hids) hlvl2'
    · -- level j distinct from M: every slot at level j is untouched
      have hslot : ∀ y, (nodeAt (setF t (Loc.node s.heap.length) M
          ((getF t Loc.hd).getD M none)) y).nexts.getD j none
          = (nodeAt t y).nexts.getD j none := by
        intro y
        by_cases hy : y = s.heap.length
        · subst hy
          rw [hnewNexts]
          show ((nodeAt t s.heap.length).nexts.set M _).getD j none = _
          exact getD_set_ne hjM
        · rw [holdAt y hy]
      rw [hslot]
      by_cases hj : j < M
      · rw [if_pos (by omega)] at hdec
        refine hpi.node_ch j pre x post ?_ hlvl2'
        rw [if_pos hj]; exact hdec
      · rw [if_neg (by omega)] at hdec
        refine hpi.node_ch j pre x post ?_ hlvl2'
        rw [if_neg hj]; exact hdec
  · -- slots of the new node above the spliced levels stay null
    intro j hj
    rw [hnodeAt, hnewNexts]
    show ((nodeAt t s.heap.length).nexts.set M _).getD j none = none
    rw [getD_set_ne (by omega)]
    exact hpi.new_hi j (by omega)

/- The splice step of the insert invariant: level M predecessor is a node. -/

theorem PartIns_splice_node {s t : SkipList} {ids A B : List Nat} {k v M j0 : Nat}
    {rest2 gpre2 : List Nat}
    (inv : InvWith s ids) (hAB : ids = A ++ B)
    (hA : ∀ x ∈ A, keyOf s x < k) (hB : ∀ x ∈ B, k < keyOf s x)
    (hpi : PartIns s ids A B k v s.heap.length t M)
    (hM : M < newLvl s) (hsc : sideCond s M (Loc.node j0))
    (hlr : locRest s ids (Loc.node j0) rest2)
    (hsplit : ids = gpre2 ++ rest2) (hg : ∀ x ∈ gpre2, keyOf s x < k)
    (hbreak : ∀ y ∈ rest2, M < lvlOf s y → k < keyOf s y) :
    PartIns s ids A B k v s.heap.length (splice t s.heap.length (Loc.node j0) M)
      (M + 1) := by
  obtain ⟨pre0, hpre0⟩ := hlr
  have hnodup : ids.Nodup := sorted_nodup inv.sorted
  have hAnodup : A.Nodup := (List.nodup_append.mp (hAB ▸ hnodup)).1
  have hlvlts : ∀ x ∈ ids, lvlOf t x = lvlOf s x := fun x hx =>
    hpi.lvl_old x (inv.valid x hx)
  have hlvlnid : lvlOf t s.heap.length = newLvl s := hpi.lvl_new
  have hnidset : ∀ x ∈ ids, x ≠ s.heap.length := fun x hx =>
    Nat.ne_of_lt (inv.valid x hx)
  have hgpre2 : gpre2 = pre0 ++ [j0] := by
    have he : gpre2 ++ rest2 = (pre0 ++ [j0]) ++ rest2 := by
      rw [← hsplit, hpre0]; simp
    exact (List.append_inj' he rfl).1
  have hj0ids : j0 ∈ ids := by rw [hpre0]; simp
  have hj0nid : j0 ≠ s.heap.length := hnidset j0 hj0ids
  have hj0k : keyOf s j0 < k := hg j0 (by rw [hgpre2]; simp)
  obtain ⟨mid, hAmid, hrmid⟩ := sandwich (fun x => keyOf s x < k) (hAB ▸ hsplit)
    hg (fun x hx => Nat.lt_asymm (hB x hx))
  have hj0A : A = pre0 ++ j0 :: mid := by
    rw [hAmid, hgpre2]; simp
  have hmidlow : ∀ x ∈ mid, lvlOf s x ≤ M := by
    intro x hx
    by_contra hcon
    have hx2 : x ∈ rest2 := by rw [hrmid]; simp [hx]
    have h1 := hbreak x hx2 (Nat.lt_of_not_le hcon)
    have hxA : x ∈ A := by rw [hj0A]; simp [hx]
    exact Nat.lt_irrefl _ (Nat.lt_trans h1 (hA x hxA))
  have hmidlowT : ∀ x ∈ mid, lvlOf t x ≤ M := by
    intro x hx
    rw [hlvlts x (by rw [hAB, hj0A]; simp [hx])]
    exact hmidlow x hx
  have hscT : M < lvlOf t j0 := by
    rw [hlvlts j0 hj0ids]
    exact hsc
  have ha : (getF t (Loc.node j0)).getD M none = firstL t M rest2 := by
    have := hpi.node_ch M pre0 j0 rest2 (by rw [if_neg (Nat.lt_irrefl M)]; exact hpre0) hscT
    exact this
  have haB : (getF t (Loc.node j0)).getD M none = firstL t M B := by
    rw [ha, hrmid, firstL_append_of_none B (firstL_eq_none_iff.mpr hmidlowT)]
  rw [splice_eq]
  have hfc : ∀ (Lq : Nat) (l : List Nat),
      firstL (setF (setF t (Loc.node s.heap.length) M ((getF t (Loc.node j0)).getD M none))
        (Loc.node j0) M (some s.heap.length)) Lq l = firstL t Lq l := by
    intro Lq l
    rw [firstL_setF, firstL_setF]
  have hnjAt : nodeAt (setF (setF t (Loc.node s.heap.length) M
      ((getF t (Loc.node j0)).getD M none)) (Loc.node j0) M (some s.heap.length)) j0
      = { nodeAt t j0 with nexts := (nodeAt t j0).nexts.set M (some s.heap.length) } := by
    rw [nodeAt_setF_node_self]
    rw [nodeAt_setF_node_ne hj0nid]
  have hnidAt : nodeAt (setF (setF t (Loc.node s.heap.length) M
      ((getF t (Loc.node j0)).getD M none)) (Loc.node j0) M (some s.heap.length))
        s.heap.length
      = { nodeAt t s.heap.length with
          nexts := (nodeAt t s.heap.length).nexts.set M
            ((getF t (Loc.node j0)).getD M none) } := by
    rw [nodeAt_setF_node_ne (fun h => hj0nid h.symm)]
    rw [nodeAt_setF_node_self]
  have holdAt : ∀ x, x ≠ s.heap.length → x ≠ j0 →
      nodeAt (setF (setF t (Loc.node s.heap.length) M
        ((getF t (Loc.node j0)).getD M none)) (Loc.node j0) M (some s.heap.length)) x
      = nodeAt t x := by
    intro x hx1 hx2
    rw [nodeAt_setF_node_ne hx2, nodeAt_setF_node_ne hx1]
  have hnodes : (setF (setF t (Loc.node s.heap.length) M
      ((getF t (Loc.node j0)).getD M none)) (Loc.node j0) M (some s.heap.length)).nodes
      = t.nodes := rfl
  refine ⟨?_, ?_, ?_, ?_, ?_, ?_, ?_, ?_, ?_, ?_, ?_, ?_, ?_, ?_⟩
  · rw [setF_heap_length, setF_heap_length]; exact hpi.heap_len
  · intro i hi; rw [keyOf_setF, keyOf_setF]; exact hpi.key_old i hi
  · intro i hi; rw [valOf_setF, valOf_setF]; exact hpi.val_old i hi
  · intro i hi; rw [lvlOf_setF, lvlOf_setF]; exact hpi.lvl_old i hi
  · rw [keyOf_setF, keyOf_setF]; exact hpi.key_new
  · rw [valOf_setF, valOf_setF]; exact hpi.val_new
  · rw [lvlOf_setF, lvlOf_setF]; exact hpi.lvl_new
  · rw [setF_count, setF_count]; exact hpi.count_t
  · rw [setF_gen, setF_gen]; exact hpi.gen_t
  · rw [setF_genIdx, setF_genIdx]; exact hpi.genIdx_t
  · rw [setF_nodes_length, setF_nodes_length]; exact hpi.hlen
  · -- head links: untouched, and at level M the first visible node is ahead
    -- of the inserted one, guarded by the visible predecessor j0
    intro j
    rw [hnodes, hfc]
    by_cases hjM : j = M
    · subst hjM
      have := hpi.head_ch j
      rw [if_neg (Nat.lt_irrefl j)] at this
      rw [if_pos (by omega), this]
      have e1 : A ++ s.heap.length :: B = pre0 ++ j0 :: (mid ++ s.heap.length :: B) := by
        rw [hj0A]; simp
      have e2 : ids = pre0 ++ j0 :: (mid ++ B) := by
        rw [hAB, hj0A]; simp
      rw [e1, e2]
      exact firstL_append_visible hscT pre0 (mid ++ B) (mid ++ s.heap.length :: B)
    · by_cases hj : j < M
      · have := hpi.head_ch j
        rw [if_pos hj] at this
        rw [if_pos (by omega)]
        exact this
      · have := hpi.head_ch j
        rw [if_neg hj] at this
        rw [if_neg (by omega)]
        exact this
  · -- node links
    intro j pre x post hdec hlvl2
    have hlvl2' : j < lvlOf t x := by
      rw [lvlOf_setF, lvlOf_setF] at hlvl2
      exact hlvl2
    rw [hfc]
    by_cases hjM : j = M
    · subst hjM
      rw [if_pos (by omega)] at hdec
      rcases decomp3 hdec with ⟨A2, hA2, hpost⟩ | ⟨hxn, hpre, hpost⟩ |
          ⟨B1, hB1, hpre⟩
      · by_cases hxj0 : x = j0
        · subst hxj0
          obtain ⟨hpreEq, hA2Eq⟩ := nodup_decomp_unique hAnodup hA2 hj0A
          rw [hnjAt]
          have hlt : j < (nodeAt t x).nexts.length := hscT
          show ((nodeAt t x).nexts.set j _).getD j none = _
          rw [getD_set_self hlt, hpost, hA2Eq]
          have hinv : firstL t j (mid ++ s.heap.length :: B)
              = firstL t j (s.heap.length :: B) :=
            firstL_append_of_none _ (firstL_eq_none_iff.mpr hmidlowT)
          rw [hinv]
          have h2 : j < lvlOf t s.heap.length := by rw [hlvlnid]; exact hM
          simp [firstL, h2]
        · -- x is a visible node of A other than the predecessor: it lies
          -- before j0, so j0 guards the suffix
          have hxA : x ∈ A := by rw [hA2]; simp
          have hxpre0 : x ∈ pre0 := by
            have := hj0A ▸ hxA
            rcases List.mem_append.mp this with h1 | h1
            · exact h1
            · rcases List.mem_cons.mp h1 with h2 | h2
              · exact absurd h2 hxj0
              · exfalso
                have := hmidlowT x h2
                exact absurd this (Nat.not_le_of_lt hlvl2')
          obtain ⟨pA, pB, hpA⟩ := List.append_of_mem hxpre0
          have hAx : A = pA ++ x :: (pB ++ j0 :: mid) := by
            rw [hj0A, hpA]; simp
          obtain ⟨hpreEq, hA2Eq⟩ := nodup_decomp_unique hAnodup hA2 hAx
          have hxnid : x ≠ s.heap.length := hnidset x (by rw [hAB]; simp [hxA])
          rw [holdAt x hxnid hxj0]
          have hids : ids = pre ++ x :: (A2 ++ B) := by
            rw [hAB, hA2]; simp
          have hval := hpi.node_ch j pre x (A2 ++ B)
            (by rw [if_neg (Nat.lt_irrefl j)]; exact hids) hlvl2'
          rw [hval, hpost, hA2Eq]
          have e1 : (pB ++ j0 :: mid) ++ B = pB ++ j0 :: (mid ++ B) := by simp
          have e2 : (pB ++ j0 :: mid) ++ s.heap.length :: B
              = pB ++ j0 :: (mid ++ s.heap.length :: B) := by simp
          rw [e1, e2]
          exact firstL_append_visible hscT pB (mid ++ B) (mid ++ s.heap.length :: B)
      · subst hxn
        rw [hnidAt]
        have hlt : j < (nodeAt t s.heap.length).nexts.length := by
          show j < lvlOf t s.heap.length
          rw [hlvlnid]; exact hM
        show ((nodeAt t s.heap.length).nexts.set j _).getD j none = _
        rw [getD_set_self hlt, hpost, haB]
      · have hxB : x ∈ B := by rw [hB1]; simp
        have hxnid : x ≠ s.heap.length := hnidset x (by rw [hAB]; simp [hxB])
        have hxj0 : x ≠ j0 := by
          intro hEq
          have := hB x hxB
          rw [hEq] at this
          exact Nat.lt_irrefl _ (Nat.lt_trans this hj0k)
        rw [holdAt x hxnid hxj0]
        have hids : ids = (A ++ B1) ++ x :: post := by
          rw [hAB, hB1]; simp
        exact hpi.node_ch j (A ++ B1) x post
          (by rw [if_neg (Nat.lt_irrefl j)]; exact hids) hlvl2'
    · -- level j distinct from M: untouched slots
      have hslot : ∀ y, (nodeAt (setF (setF t (Loc.node s.heap.length) M
          ((getF t (Loc.node j0)).getD M none)) (Loc.node j0) M (some s.heap.length))
            y).nexts.getD j none
          = (nodeAt t y).nexts.getD j none := by
        intro y
        by_cases hy1 : y = j0
        · subst hy1
          rw [hnjAt]
          show ((nodeAt t y).nexts.set M _).getD j none = _
          exact getD_set_ne hjM
        · by_cases hy2 : y = s.heap.length
          · subst hy2
            rw [hnidAt]
            show ((nodeAt t s.heap.length).nexts.set M _).getD j none = _
            exact getD_set_ne hjM
          · rw [holdAt y hy2 hy1]
      rw [hslot]
      by_cases hj : j < M
      · rw [if_pos (by omega)] at hdec
        refine hpi.node_ch j pre x post ?_ hlvl2'
        rw [if_pos hj]; exact hdec
      · rw [if_neg (by omega)] at hdec
        refine hpi.node_ch j pre x post ?_ hlvl2'
        rw [if_neg hj]; exact hdec
  · -- slots of the new node above the spliced levels stay null
    intro j hj
    rw [hnidAt]
    show ((nodeAt t s.heap.length).nexts.set M _).getD j none = none
    rw [getD_set_ne (by omega)]
    exact hpi.new_hi j (by omega)

/- Components of the alloc state. -/

theorem allocState_heap (s : SkipList) (k v : Nat) :
    (allocState s k v).heap = s.heap ++ [⟨k, v, List.replicate (newLvl s) none⟩] := rfl

theorem lvlOf_allocState_new (s : SkipList) (k v : Nat) :
    lvlOf (allocState s k v) s.heap.length = newLvl s := by
  rw [lvlOf, nodeAt_of_heap_append_self (allocState_heap s k v)]
  simp

/- insert_impl rejects a key already present ahead of the walk position. -/

theorem insert_impl_dup {s : SkipList} {ids : List Nat} (inv : InvWith s ids)
    (k v : Nat) :
    ∀ L loc rest, locRest s ids loc rest → sideCond s L loc →
      (∃ x, x ∈ rest ∧ keyOf s x = k) →
      insert_impl s k v L loc = IRes.err := by
  intro L
  induction L with
  | zero =>
      intro loc rest hlr hsc hex
      obtain ⟨x, hx, hxk⟩ := hex
      have hflen : rest.length < s.heap.length + 1 :=
        Nat.lt_succ_of_le (Nat.le_trans (locRest_length_le hlr) (ids_length_le inv))
      obtain ⟨skipped, loc2, rest2, hsp, hks, hlr2, hsc2, hout⟩ :=
        advInsert_spec inv k 0 (s.heap.length + 1) loc rest hlr hsc hflen
      have hx2 : x ∈ rest2 := by
        rw [hsp] at hx
        rcases List.mem_append.mp hx with h1 | h1
        · exact absurd hxk (Nat.ne_of_lt (hks x h1))
        · exact h1
      have hxvis : 0 < lvlOf s x :=
        inv.lvl_pos x (locRest_subset hlr2 x hx2)
      rcases hout with ⟨hnone, _⟩ | ⟨j, hj, hjk, heq⟩ | ⟨j, hj, hjgt, _⟩
      · exact absurd (firstL_eq_none_iff.mp hnone x hx2) (Nat.not_le_of_lt hxvis)
      · simp only [insert_impl, heq]
      · have := visible_gt_of_break (locRest_pairwise inv.sorted hlr2)
          (Or.inr ⟨j, hj, hjgt⟩) x hx2 hxvis
        exact absurd hxk (Nat.ne_of_gt this)
  | succ L ih =>
      intro loc rest hlr hsc hex
      obtain ⟨x, hx, hxk⟩ := hex
      have hflen : rest.length < s.heap.length + 1 :=
        Nat.lt_succ_of_le (Nat.le_trans (locRest_length_le hlr) (ids_length_le inv))
      obtain ⟨skipped, loc2, rest2, hsp, hks, hlr2, hsc2, hout⟩ :=
        advInsert_spec inv k (L + 1) (s.heap.length + 1) loc rest hlr hsc hflen
      have hx2 : x ∈ rest2 := by
        rw [hsp] at hx
        rcases List.mem_append.mp hx with h1 | h1
        · exact absurd hxk (Nat.ne_of_lt (hks x h1))
        · exact h1
      rcases hout with ⟨hnone, heq⟩ | ⟨j, hj, hjk, heq⟩ | ⟨j, hj, hjgt, heq⟩
      · have hin := ih loc2 rest2 hlr2 (sideCond_down hsc2) ⟨x, hx2, hxk⟩
        simp only [insert_impl, heq, hin]
      · simp only [insert_impl, heq]
      · have hin := ih loc2 rest2 hlr2 (sideCond_down hsc2) ⟨x, hx2, hxk⟩
        simp only [insert_impl, heq, hin]

/- Successful insert_impl: ok result with the intermediate invariant spliced
up to the calling level. -/

theorem insert_impl_ok {s : SkipList} {ids : List Nat} (inv : InvWith s ids)
    (k v : Nat) (hk : ∀ x ∈ ids, keyOf s x ≠ k) :
    ∀ L loc rest gpre, locRest s ids loc rest → ids = gpre ++ rest →
      (∀ x ∈ gpre, keyOf s x < k) → sideCond s L loc →
      ∃ A B t, ids = A ++ B ∧ (∀ x ∈ A, keyOf s x < k) ∧
        (∀ x ∈ B, k < keyOf s x) ∧
        insert_impl s k v L loc = IRes.ok s.heap.length t ∧
        PartIns s ids A B k v s.heap.length t (L + 1) := by
  intro L
  induction L with
  | zero =>
      intro loc rest gpre hlr hgr hg hsc
      have hflen : rest.length < s.heap.length + 1 :=
        Nat.lt_succ_of_le (Nat.le_trans (locRest_length_le hlr) (ids_length_le inv))
      obtain ⟨skipped, loc2, rest2, hsp, hks, hlr2, hsc2, hout⟩ :=
        advInsert_spec inv k 0 (s.heap.length + 1) loc rest hlr hsc hflen
      have hnodup2 : ∀ j, firstL s 0 rest2 = some j → keyOf s j ≠ k := by
        intro j hj
        exact hk j (locRest_subset hlr2 j (firstL_mem hj))
      have hbrk : firstL s 0 rest2 = none ∨
          ∃ j, firstL s 0 rest2 = some j ∧ k < keyOf s j := by
        rcases hout with ⟨h1, _⟩ | ⟨j, hj, hjk, _⟩ | ⟨j, hj, hjgt, _⟩
        · exact Or.inl h1
        · exact absurd hjk (hnodup2 j hj)
        · exact Or.inr ⟨j, hj, hjgt⟩
      have heq : advInsert s k 0 (s.heap.length + 1) loc = Adv.stop loc2 := by
        rcases hout with ⟨_, h⟩ | ⟨j, hj, hjk, _⟩ | ⟨_, _, _, h⟩
        · exact h
        · exact absurd hjk (hnodup2 j hj)
        · exact h
      have hB : ∀ x ∈ rest2, k < keyOf s x := by
        intro x hx
        exact visible_gt_of_break (locRest_pairwise inv.sorted hlr2) hbrk x hx
          (inv.lvl_pos x (locRest_subset hlr2 x hx))
      have hA : ∀ x ∈ gpre ++ skipped, keyOf s x < k := by
        intro x hx
        rcases List.mem_append.mp hx with h1 | h1
        · exact hg x h1
        · exact hks x h1
      have hAB : ids = (gpre ++ skipped) ++ rest2 := by
        rw [hgr, hsp]; simp
      have hbase : PartIns s ids (gpre ++ skipped) rest2 k v s.heap.length
          (allocState s k v) 0 :=
        PartIns_base inv k v (gpre ++ skipped) rest2 rfl rfl rfl rfl rfl
      have hpos : ¬ lvlOf (allocState s k v) s.heap.length ≤ 0 := by
        rw [lvlOf_allocState_new]
        have := newLvl_pos s
        omega
      have heqI : insert_impl s k v 0 loc = IRes.ok s.heap.length
          (splice (allocState s k v) s.heap.length loc2 0) := by
        simp only [insert_impl, heq, alloc_eq]
        show (if lvlOf (allocState s k v) s.heap.length ≤ 0
            then IRes.ok s.heap.length (allocState s k v)
            else IRes.ok s.heap.length
              (splice (allocState s k v) s.heap.length loc2 0)) = _
        rw [if_neg hpos]
      refine ⟨gpre ++ skipped, rest2, _, hAB, hA, hB, heqI, ?_⟩
      have hM : (0 : Nat) < newLvl s := newLvl_pos s
      cases loc2 with
      | hd =>
          have hrid : rest2 = ids := hlr2
          refine PartIns_splice_hd inv hAB hA hB hbase hM hsc2 ?_
          intro y hy _
          exact hB y (hrid ▸ hy)
      | node j0 =>
          exact PartIns_splice_node inv hAB hA hB hbase hM hsc2 hlr2 hAB hA
            (fun y hy _ => hB y hy)
  | succ L ih =>
      intro loc rest gpre hlr hgr hg hsc
      have hflen : rest.length < s.heap.length + 1 :=
        Nat.lt_succ_of_le (Nat.le_trans (locRest_length_le hlr) (ids_length_le inv))
      obtain ⟨skipped, loc2, rest2, hsp, hks, hlr2, hsc2, hout⟩ :=
        advInsert_spec inv k (L + 1) (s.heap.length + 1) loc rest hlr hsc hflen
      have hnodup2 : ∀ j, firstL s (L + 1) rest2 = some j → keyOf s j ≠ k := by
        intro j hj
        exact hk j (locRest_subset hlr2 j (firstL_mem hj))
      have hbrk : firstL s (L + 1) rest2 = none ∨
          ∃ j, firstL s (L + 1) rest2 = some j ∧ k < keyOf s j := by
        rcases hout with ⟨h1, _⟩ | ⟨j, hj, hjk, _⟩ | ⟨j, hj, hjgt, _⟩
        · exact Or.inl h1
        · exact absurd hjk (hnodup2 j hj)
        · exact Or.inr ⟨j, hj, hjgt⟩
      have heq : advInsert s k (L + 1) (s.heap.length + 1) loc = Adv.stop loc2 := by
        rcases hout with ⟨_, h⟩ | ⟨j, hj, hjk, _⟩ | ⟨_, _, _, h⟩
        · exact h
        · exact absurd hjk (hnodup2 j hj)
        · exact h
      have hg2 : ∀ x ∈ gpre ++ skipped, keyOf s x < k := by
        intro x hx
        rcases List.mem_append.mp hx with h1 | h1
        · exact hg x h1
        · exact hks x h1
      have hgr2 : ids = (gpre ++ skipped) ++ rest2 := by
        rw [hgr, hsp]; simp
      obtain ⟨A, B, t, hAB, hA, hB, hres, hpi⟩ :=
        ih loc2 rest2 (gpre ++ skipped) hlr2 hgr2 hg2 (sideCond_down hsc2)
      have hbreak2 : ∀ y ∈ rest2, L + 1 < lvlOf s y → k < keyOf s y :=
        visible_gt_of_break (locRest_pairwise inv.sorted hlr2) hbrk
      by_cases hle : lvlOf t s.heap.length ≤ L + 1
      · have heqI : insert_impl s k v (L + 1) loc = IRes.ok s.heap.length t := by
          simp only [insert_impl, heq, hres, if_pos hle]
        refine ⟨A, B, t, hAB, hA, hB, heqI, ?_⟩
        refine PartIns_up inv hAB hpi ?_
        rw [← hpi.lvl_new]
        exact hle
      · have heqI : insert_impl s k v (L + 1) loc = IRes.ok s.heap.length
            (splice t s.heap.length loc2 (L + 1)) := by
          simp only [insert_impl, heq, hres, if_neg hle]
        refine ⟨A, B, _, hAB, hA, hB, heqI, ?_⟩
        have hM : L + 1 < newLvl s := by
          rw [← hpi.lvl_new]
          omega
        cases loc2 with
        | hd =>
            have hrid : rest2 = ids := hlr2
            refine PartIns_splice_hd inv hAB hA hB hpi hM hsc2 ?_
            intro y hy hvy
            exact hbreak2 y (hrid ▸ hy) hvy
        | node j0 =>
            exact PartIns_splice_node inv hAB hA hB hpi hM hsc2 hlr2 hgr2 hg2 hbreak2

/- Top level insert. -/

theorem insert_present {s : SkipList} {ids : List Nat} (inv : InvWith s ids)
    {k : Nat} (v : Nat) (hk : ∃ x, x ∈ ids ∧ keyOf s x = k) :
    SkipList.insert s k v = OpRes.ok (Except.error (k, v)) s := by
  have hsc : sideCond s (s.nodes.length - 1) Loc.hd := by
    have := inv.head_pos
    show s.nodes.length - 1 < s.nodes.length
    omega
  have hdup := insert_impl_dup inv k v (s.nodes.length - 1) Loc.hd ids rfl hsc hk
  simp only [SkipList.insert, hdup]

theorem insert_absent {s : SkipList} {ids : List Nat} (inv : InvWith s ids)
    (k v : Nat) (hk : ∀ x ∈ ids, keyOf s x ≠ k) :
    ∃ A B t2, ids = A ++ B ∧ (∀ x ∈ A, keyOf s x < k) ∧
      (∀ x ∈ B, k < keyOf s x) ∧
      SkipList.insert s k v = OpRes.ok (Except.ok ()) t2 ∧
      InvWith t2 (A ++ s.heap.length :: B) ∧
      keyOf t2 s.heap.length = k ∧ valOf t2 s.heap.length = v ∧
      (∀ i, i < s.heap.length → keyOf t2 i = keyOf s i ∧ valOf t2 i = valOf s i) ∧
      t2.count = s.count + 1 ∧ t2.heap.length = s.heap.length + 1 ∧
      t2.genIdx = newGI s ∧ t2.gen = s.gen ∧
      lvlOf t2 s.heap.length = newLvl s := by
  have hlen1 : 1 ≤ s.nodes.length := inv.head_pos
  have hsc : sideCond s (s.nodes.length - 1) Loc.hd := by
    show s.nodes.length - 1 < s.nodes.length
    omega
  obtain ⟨A, B, t, hAB, hA, hB, hres, hpi0⟩ :=
    insert_impl_ok inv k v hk (s.nodes.length - 1) Loc.hd ids [] rfl (by simp)
      (by intro x hx; cases hx) hsc
  have hM : s.nodes.length - 1 + 1 = s.nodes.length := by omega
  rw [hM] at hpi0
  have hpi : PartIns s ids A B k v s.heap.length t s.nodes.length := hpi0
  have hlvlnid : lvlOf t s.heap.length = newLvl s := hpi.lvl_new
  have hnid : ∀ x ∈ ids, x ≠ s.heap.length := fun x hx =>
    Nat.ne_of_lt (inv.valid x hx)
  have hlvlts : ∀ x ∈ ids, lvlOf t x = lvlOf s x := fun x hx =>
    hpi.lvl_old x (inv.valid x hx)
  have hkeyts : ∀ x ∈ ids, keyOf t x = keyOf s x := fun x hx =>
    hpi.key_old x (inv.valid x hx)
  -- the final state after extending the head vector
  refine ⟨A, B, extendHead t s.heap.length s.nodes.length,
    hAB, hA, hB, ?_, ?_, ?_, ?_, ?_, ?_, ?_, ?_, ?_, ?_⟩
  · simp only [SkipList.insert, hres]
  · -- the full invariant for the new chain
    set t2 : SkipList := extendHead t s.heap.length s.nodes.length with ht2
    have hnA2 : nodeAt t2 = nodeAt t := rfl
    have hfc2 : ∀ (L : Nat) (l : List Nat), firstL t2 L l = firstL t L l :=
      fun L l => firstL_congr (fun x _ => rfl)
    have hk2 : ∀ x, keyOf t2 x = keyOf t x := fun x => rfl
    have hl2 : ∀ x, lvlOf t2 x = lvlOf t x := fun x => rfl
    have hlen2 : t2.nodes.length
        = s.nodes.length + (newLvl s - s.nodes.length) := by
      show (t.nodes ++ _).length = _
      rw [List.length_append, List.length_replicate, hpi.hlen, hlvlnid]
    have hsorted2 : List.Pairwise (keyLt t2) (A ++ s.heap.length :: B) := by
      rw [List.pairwise_append]
      refine ⟨?_, ?_, ?_⟩
      · refine List.Pairwise.imp_of_mem ?_ ((hAB ▸ inv.sorted).sublist
          (List.sublist_append_left A B))
        intro a b ha hb hab
        have haids : a ∈ ids := by rw [hAB]; simp [ha]
        have hbids : b ∈ ids := by rw [hAB]; simp [hb]
        rw [keyLt, hk2, hk2, hkeyts a haids, hkeyts b hbids]
        exact hab
      · rw [List.pairwise_cons]
        refine ⟨?_, ?_⟩
        · intro b hb
          have hbids : b ∈ ids := by rw [hAB]; simp [hb]
          rw [keyLt, hk2, hk2, hkeyts b hbids, hpi.key_new]
          exact hB b hb
        · refine List.Pairwise.imp_of_mem ?_ ((hAB ▸ inv.sorted).sublist
            (List.sublist_append_right A B))
          intro a b ha hb hab
          have haids : a ∈ ids := by rw [hAB]; simp [ha]
          have hbids : b ∈ ids := by rw [hAB]; simp [hb]
          rw [keyLt, hk2, hk2, hkeyts a haids, hkeyts b hbids]
          exact hab
      · intro a ha b hb
        have haids : a ∈ ids := by rw [hAB]; simp [ha]
        rcases List.mem_cons.mp hb with rfl | hb2
        · rw [keyLt, hk2, hk2, hkeyts a haids, hpi.key_new]
          exact hA a ha
        · have hbids : b ∈ ids := by rw [hAB]; simp [hb2]
          rw [keyLt, hk2, hk2, hkeyts a haids, hkeyts b hbids]
          exact Nat.lt_trans (hA a ha) (hB b hb2)
    have hnodup2 : (A ++ s.heap.length :: B).Nodup := sorted_nodup hsorted2
    have hmem2 : ∀ x ∈ A ++ s.heap.length :: B, x = s.heap.length ∨ x ∈ ids := by
      intro x hx
      rcases List.mem_append.mp hx with h1 | h1
      · exact Or.inr (by rw [hAB]; simp [h1])
      · rcases List.mem_cons.mp h1 with rfl | h2
        · exact Or.inl rfl
        · exact Or.inr (by rw [hAB]; simp [h2])
    refine ⟨hsorted2, ?_, ?_, ?_, ?_, ?_, ?_, ?_⟩
    · intro x hx
      have hlh : t2.heap.length = s.heap.length + 1 := hpi.heap_len
      rcases hmem2 x hx with rfl | h2
      · omega
      · have := inv.valid x h2
        omega
    · intro x hx
      rcases hmem2 x hx with rfl | h2
      · rw [hl2, hlvlnid]
        exact newLvl_pos s
      · rw [hl2, hlvlts x h2]
        exact inv.lvl_pos x h2
    · intro x hx
      rw [hlen2]
      rcases hmem2 x hx with rfl | h2
      · rw [hl2, hlvlnid]
        omega
      · rw [hl2, hlvlts x h2]
        have := inv.lvl_le x h2
        omega
    · rw [hlen2]
      omega
    · show t.count = (A ++ s.heap.length :: B).length
      rw [hpi.count_t, inv.count_eq, hAB]
      simp
      omega
    · -- head links of the final state
      intro L
      by_cases hL : L < s.nodes.length
      · have hLt : L < t.nodes.length := by rw [hpi.hlen]; exact hL
        show (t.nodes ++ _).getD L none = _
        rw [getD_append_lt hLt, hfc2]
        have := hpi.head_ch L
        rw [if_pos hL] at this
        exact this
      · by_cases hL2 : L < s.nodes.length + (newLvl s - s.nodes.length)
        · have hLt : t.nodes.length ≤ L := by rw [hpi.hlen]; omega
          show (t.nodes ++ _).getD L none = _
          rw [getD_append_ge hLt, getD_replicate, if_pos (by
            rw [hpi.hlen, hlvlnid]
            omega)]
          rw [hfc2]
          have hAinv : firstL t L (A ++ s.heap.length :: B)
              = firstL t L (s.heap.length :: B) := by
            refine firstL_append_of_none _ (firstL_eq_none_iff.mpr ?_)
            intro x hx
            have hxids : x ∈ ids := by rw [hAB]; simp [hx]
            rw [hlvlts x hxids]
            exact Nat.le_trans (inv.lvl_le x hxids) (by omega)
          rw [hAinv]
          have hv : L < lvlOf t s.heap.length := by rw [hlvlnid]; omega
          simp [firstL, hv]
        · have hLt : t.nodes.length ≤ L := by rw [hpi.hlen]; omega
          show (t.nodes ++ _).getD L none = _
          rw [getD_append_ge hLt, getD_replicate, if_neg (by
            rw [hpi.hlen, hlvlnid]
            omega)]
          symm
          rw [firstL_eq_none_iff]
          intro x hx
          rw [hl2]
          rcases hmem2 x hx with rfl | h2
          · rw [hlvlnid]; omega
          · rw [hlvlts x h2]
            exact Nat.le_trans (inv.lvl_le x h2) (by omega)
    · -- node links of the final state
      intro L pre x post hdec hlvl
      by_cases hL : L < s.nodes.length
      · have := hpi.node_ch L pre x post (by rw [if_pos hL]; exact hdec)
          (by rw [← hl2]; exact hlvl)
        rw [hnA2, hfc2]
        exact this
      · -- above the old head levels only the new node is tall enough
        have hxnid : x = s.heap.length := by
          have hx : x ∈ A ++ s.heap.length :: B := by rw [hdec]; simp
          rcases hmem2 x hx with h1 | h2
          · exact h1
          · exfalso
            rw [hl2, hlvlts x h2] at hlvl
            exact absurd (Nat.le_trans (inv.lvl_le x h2) (Nat.le_of_not_lt hL))
              (Nat.not_le_of_lt hlvl)
        subst hxnid
        have hcan : pre = A ∧ post = B := by
          refine nodup_decomp_unique hnodup2 hdec rfl
        obtain ⟨hpre, hpost⟩ := hcan
        rw [hnA2]
        have := hpi.new_hi L (by omega)
        rw [this, hpost]
        symm
        rw [firstL_eq_none_iff]
        intro y hy
        have hyids : y ∈ ids := by rw [hAB]; simp [hy]
        rw [hl2, hlvlts y hyids]
        exact Nat.le_trans (inv.lvl_le y hyids) (Nat.le_of_not_lt hL)
  · show keyOf t _ = k
    exact hpi.key_new
  · show valOf t _ = v
    exact hpi.val_new
  · intro i hi
    exact ⟨hpi.key_old i hi, hpi.val_old i hi⟩
  · show t.count = s.count + 1
    exact hpi.count_t
  · show t.heap.length = s.heap.length + 1
    exact hpi.heap_len
  · show t.genIdx = newGI s
    exact hpi.genIdx_t
  · show t.gen = s.gen
    exact hpi.gen_t
  · show lvlOf t s.heap.length = newLvl s
    exact hlvlnid

/- The walk of remove_impl, characterised through the insert walk. -/

theorem advRemove_spec {s : SkipList} {ids : List Nat} (inv : InvWith s ids)
    (k L : Nat) :
    ∀ fuel loc rest, locRest s ids loc rest → sideCond s L loc →
      rest.length < fuel →
      ∃ skipped loc2 rest2,
        rest = skipped ++ rest2 ∧ (∀ x ∈ skipped, keyOf s x < k) ∧
        locRest s ids loc2 rest2 ∧ sideCond s L loc2 ∧
        advRemove s k L fuel loc = AdvR.stop loc2 ∧
        (firstL s L rest2 = none ∨
          ∃ j, firstL s L rest2 = some j ∧ k ≤ keyOf s j) := by
  intro fuel loc rest hlr hsc hflen
  obtain ⟨skipped, loc2, rest2, hsp, hks, hlr2, hsc2, hout⟩ :=
    advInsert_spec inv k L fuel loc rest hlr hsc hflen
  refine ⟨skipped, loc2, rest2, hsp, hks, hlr2, hsc2, ?_, ?_⟩
  · rw [advRemove_eq_advInsert]
    rcases hout with ⟨_, h⟩ | ⟨j, _, _, h⟩ | ⟨_, _, _, h⟩ <;> rw [h]
  · rcases hout with ⟨h, _⟩ | ⟨j, hj, hjk, _⟩ | ⟨j, hj, hjk, _⟩
    · exact Or.inl h
    · exact Or.inr ⟨j, hj, Nat.le_of_eq hjk.symm⟩
    · exact Or.inr ⟨j, hj, Nat.le_of_lt hjk⟩

theorem decomp2 {A B pre post : List Nat} {x : Nat}
    (h : A ++ B = pre ++ x :: post) :
    (∃ A2, A = pre ++ x :: A2 ∧ post = A2 ++ B) ∨
    (∃ B1, B = B1 ++ x :: post ∧ pre = A ++ B1) := by
  rcases List.append_eq_append_iff.mp h with ⟨a2, ha1, ha2⟩ | ⟨c2, hc1, hc2⟩
  · exact Or.inr ⟨a2, ha2, by rw [ha1]⟩
  · cases c2 with
    | nil =>
        simp only [List.append_nil] at hc1
        have h2 : x :: post = B := by simpa using hc2
        exact Or.inr ⟨[], by simpa using h2.symm, by simpa using hc1.symm⟩
    | cons y ys =>
        have h2 : x :: post = y :: (ys ++ B) := by simpa using hc2
        injection h2 with hx hpost
        subst hx
        exact Or.inl ⟨ys, hc1, hpost⟩

/- Establishing the intermediate remove invariant before any unlink, and
raising its level bound. -/

theorem PartRem_base {s : SkipList} {ids : List Nat} (inv : InvWith s ids)
    (A Btail : List Nat) (rid : Nat) :
    PartRem s ids A Btail rid (decState s) 0 := by
  have hn : ∀ i, nodeAt (decState s) i = nodeAt s i := fun i => rfl
  refine ⟨rfl, fun i => rfl, fun i => rfl, fun i => rfl, rfl, rfl, rfl, rfl,
    ?_, ?_, ?_⟩
  · intro j
    simp only [Nat.not_lt_zero, if_false]
    show s.nodes.getD j none = _
    rw [inv.head_ch j]
    exact (@firstL_congr s (decState s) j ids (fun x _ => rfl)).symm
  · intro j pre x post hdec hlvl
    simp only [Nat.not_lt_zero, if_false] at hdec
    have hlvl2 : j < lvlOf s x := hlvl
    rw [hn, inv.node_ch j pre x post hdec hlvl2]
    exact (@firstL_congr s (decState s) j post (fun x _ => rfl)).symm
  · intro j hj _
    exact absurd hj (Nat.not_lt_zero j)

theorem PartRem_up {s t : SkipList} {ids A Btail : List Nat} {rid M : Nat}
    (hAB : ids = A ++ rid :: Btail)
    (hpr : PartRem s ids A Btail rid t M)
    (hlvl : lvlOf s rid ≤ M) :
    PartRem s ids A Btail rid t (M + 1) := by
  have hlvlT : lvlOf t rid ≤ M := by rw [hpr.lvl_old]; exact hlvl
  refine ⟨hpr.heap_len, hpr.key_old, hpr.val_old, hpr.lvl_old, hpr.count_t,
    hpr.gen_t, hpr.genIdx_t, hpr.hlen, ?_, ?_, ?_⟩
  · intro j
    by_cases hj : j < M
    · have := hpr.head_ch j
      rw [if_pos hj] at this
      rw [if_pos (by omega)]
      exact this
    · by_cases hjM : j = M
      · subst hjM
        have := hpr.head_ch j
        rw [if_neg hj] at this
        rw [if_pos (by omega), this, hAB]
        exact firstL_mid_invisible hlvlT
      · have := hpr.head_ch j
        rw [if_neg hj] at this
        rw [if_neg (by omega)]
        exact this
  · intro j pre x post hdec hlvl2
    by_cases hj : j < M
    · rw [if_pos (by omega)] at hdec
      refine hpr.node_ch j pre x post ?_ hlvl2
      rw [if_pos hj]; exact hdec
    · by_cases hjM : j = M
      · subst hjM
        rw [if_pos (by omega)] at hdec
        rcases decomp2 hdec with ⟨A2, hA2, hpost⟩ | ⟨B1, hB1, hpre⟩
        · have hids : ids = pre ++ x :: (A2 ++ rid :: Btail) := by
            rw [hAB, hA2]; simp
          have hval := hpr.node_ch j pre x (A2 ++ rid :: Btail)
            (by rw [if_neg hj]; exact hids) hlvl2
          rw [hval, hpost]
          exact firstL_mid_invisible hlvlT
        · have hids : ids = (A ++ rid :: B1) ++ x :: post := by
            rw [hAB, hB1]; simp
          exact hpr.node_ch j (A ++ rid :: B1) x post
            (by rw [if_neg hj]; exact hids) hlvl2
      · rw [if_neg (by omega)] at hdec
        refine hpr.node_ch j pre x post ?_ hlvl2
        rw [if_neg hj]; exact hdec
  · intro j hj hjl
    by_cases hjM : j = M
    · subst hjM
      exact absurd hjl (Nat.not_lt_of_le hlvlT)
    · exact hpr.rid_lo j (by omega) hjl

theorem unlink_eq (s : SkipList) (rid : Nat) (loc : Loc) (L : Nat) :
    unlink s rid loc L =
      setF (setF s loc L ((nodeAt s rid).nexts.getD L none)) (Loc.node rid) L none :=
  rfl

/- The unlink step of the remove invariant: level M predecessor is the head
vector. -/

theorem PartRem_unlink_hd {s t : SkipList} {ids A Btail : List Nat} {k rid M : Nat}
    (inv : InvWith s ids) (hAB : ids = A ++ rid :: Btail)
    (hA : ∀ x ∈ A, keyOf s x < k) (hBge : ∀ x ∈ rid :: Btail, k ≤ keyOf s x)
    (hpr : PartRem s ids A Btail rid t M)
    (hM : M < lvlOf s rid) (hsc : sideCond s M Loc.hd)
    (hbreak : ∀ y ∈ ids, M < lvlOf s y → k ≤ keyOf s y) :
    PartRem s ids A Btail rid (unlink t rid Loc.hd M) (M + 1) := by
  have hnodup : ids.Nodup := sorted_nodup inv.sorted
  have hlvlts : ∀ x, lvlOf t x = lvlOf s x := hpr.lvl_old
  have hrid_ids : rid ∈ ids := by rw [hAB]; simp
  have hMT : M < lvlOf t rid := by rw [hlvlts]; exact hM
  have hAlowS : ∀ x ∈ A, lvlOf s x ≤ M := by
    intro x hx
    by_contra hcon
    have h1 := hbreak x (by rw [hAB]; simp [hx]) (Nat.lt_of_not_le hcon)
    exact absurd h1 (Nat.not_le_of_lt (hA x hx))
  have hAlowT : ∀ x ∈ A, lvlOf t x ≤ M := by
    intro x hx
    rw [hlvlts]
    exact hAlowS x hx
  have hrid_notA : rid ∉ A := by
    intro hx
    exact absurd (hBge rid (by simp)) (Nat.not_le_of_lt (hA rid hx))
  have ha : (nodeAt t rid).nexts.getD M none = firstL t M Btail := by
    have := hpr.node_ch M A rid Btail (by rw [if_neg (Nat.lt_irrefl M)]; exact hAB) hMT
    exact this
  rw [unlink_eq]
  have hfc : ∀ (Lq : Nat) (l : List Nat),
      firstL (setF (setF t Loc.hd M ((nodeAt t rid).nexts.getD M none))
        (Loc.node rid) M none) Lq l = firstL t Lq l := by
    intro Lq l
    rw [firstL_setF, firstL_setF]
  have hridAt : nodeAt (setF (setF t Loc.hd M ((nodeAt t rid).nexts.getD M none))
      (Loc.node rid) M none) rid
      = { nodeAt t rid with nexts := (nodeAt t rid).nexts.set M none } := by
    rw [nodeAt_setF_node_self]
    rfl
  have holdAt : ∀ x, x ≠ rid →
      nodeAt (setF (setF t Loc.hd M ((nodeAt t rid).nexts.getD M none))
        (Loc.node rid) M none) x = nodeAt t x := by
    intro x hx
    rw [nodeAt_setF_node_ne hx]
    rfl
  have hnodes : (setF (setF t Loc.hd M ((nodeAt t rid).nexts.getD M none))
      (Loc.node rid) M none).nodes
      = t.nodes.set M ((nodeAt t rid).nexts.getD M none) := rfl
  have hMlen : M < t.nodes.length := by
    rw [hpr.hlen]
    exact hsc
  refine ⟨?_, ?_, ?_, ?_, ?_, ?_, ?_, ?_, ?_, ?_, ?_⟩
  · rw [setF_heap_length, setF_heap_length]; exact hpr.heap_len
  · intro i; rw [keyOf_setF, keyOf_setF]; exact hpr.key_old i
  · intro i; rw [valOf_setF, valOf_setF]; exact hpr.val_old i
  · intro i; rw [lvlOf_setF, lvlOf_setF]; exact hpr.lvl_old i
  · rw [setF_count, setF_count]; exact hpr.count_t
  · rw [setF_gen, setF_gen]; exact hpr.gen_t
  · rw [setF_genIdx, setF_genIdx]; exact hpr.genIdx_t
  · rw [setF_nodes_length, setF_nodes_length]; exact hpr.hlen
  · intro j
    rw [hnodes, hfc]
    by_cases hjM : j = M
    · subst hjM
      rw [getD_set_self hMlen, if_pos (by omega), ha]
      symm
      rw [firstL_append_of_none _ (firstL_eq_none_iff.mpr hAlowT)]
    · rw [getD_set_ne hjM]
      by_cases hj : j < M
      · have := hpr.head_ch j
        rw [if_pos hj] at this
        rw [if_pos (by omega)]
        exact this
      · have := hpr.head_ch j
        rw [if_neg hj] at this
        rw [if_neg (by omega)]
        exact this
  · intro j pre x post hdec hlvl2
    have hlvl2' : j < lvlOf t x := by
      rw [lvlOf_setF, lvlOf_setF] at hlvl2
      exact hlvl2
    rw [hfc]
    by_cases hjM : j = M
    · subst hjM
      rw [if_pos (by omega)] at hdec
      rcases decomp2 hdec with ⟨A2, hA2, hpost⟩ | ⟨B1, hB1, hpre⟩
      · exfalso
        have hxA : x ∈ A := by rw [hA2]; simp
        exact absurd (hAlowT x hxA) (Nat.not_le_of_lt hlvl2')
      · have hxB : x ∈ Btail := by rw [hB1]; simp
        have hxrid : x ≠ rid := by
          intro hEq
          subst hEq
          have := List.disjoint_of_nodup_append
            (by rw [hAB] at hnodup; exact hnodup)
          exact ((List.nodup_cons.mp (List.nodup_append.mp (hAB ▸ hnodup)).2.1).1)
            (hB1 ▸ (by simp : x ∈ B1 ++ x :: post))
        rw [holdAt x hxrid]
        have hids : ids = (A ++ rid :: B1) ++ x :: post := by
          rw [hAB, hB1]; simp
        exact hpr.node_ch j (A ++ rid :: B1) x post
          (by rw [if_neg (Nat.lt_irrefl j)]; exact hids) hlvl2'
    · have hslot : ∀ y, (nodeAt (setF (setF t Loc.hd M
          ((nodeAt t rid).nexts.getD M none)) (Loc.node rid) M none) y).nexts.getD j none
          = (nodeAt t y).nexts.getD j none := by
        intro y
        by_cases hy : y = rid
        · subst hy
          rw [hridAt]
          show ((nodeAt t y).nexts.set M _).getD j none = _
          exact getD_set_ne hjM
        · rw [holdAt y hy]
      rw [hslot]
      by_cases hj : j < M
      · rw [if_pos (by omega)] at hdec
        refine hpr.node_ch j pre x post ?_ hlvl2'
        rw [if_pos hj]; exact hdec
      · rw [if_neg (by omega)] at hdec
        refine hpr.node_ch j pre x post ?_ hlvl2'
        rw [if_neg hj]; exact hdec
  · intro j hj hjl
    by_cases hjM : j = M
    · subst hjM
      rw [hridAt]
      show ((nodeAt t rid).nexts.set j none).getD j none = none
      by_cases hlen : j < (nodeAt t rid).nexts.length
      · exact getD_set_self hlen
      · rw [List.set_eq_of_length_le (Nat.le_of_not_lt hlen)]
        exact getD_oor (Nat.le_of_not_lt hlen)
    · have hjl' : j < lvlOf t rid := by
        rw [lvlOf_setF, lvlOf_setF] at hjl
        exact hjl
      rw [hridAt]
      show ((nodeAt t rid).nexts.set M none).getD j none = none
      rw [getD_set_ne hjM]
      exact hpr.rid_lo j (by omega) hjl'

/- The unlink step of the remove invariant: level M predecessor is a node. -/

theorem PartRem_unlink_node {s t : SkipList} {ids A Btail : List Nat}
    {k rid M j0 : Nat} {rest2 gpre2 : List Nat}
    (inv : InvWith s ids) (hAB : ids = A ++ rid :: Btail)
    (hA : ∀ x ∈ A, keyOf s x < k) (hBge : ∀ x ∈ rid :: Btail, k ≤ keyOf s x)
    (hpr : PartRem s ids A Btail rid t M)
    (hM : M < lvlOf s rid) (hsc : sideCond s M (Loc.node j0))
    (hlr : locRest s ids (Loc.node j0) rest2)
    (hsplit : ids = gpre2 ++ rest2) (hg : ∀ x ∈ gpre2, keyOf s x < k)
    (hbreak : ∀ y ∈ rest2, M < lvlOf s y → k ≤ keyOf s y) :
    PartRem s ids A Btail rid (unlink t rid (Loc.node j0) M) (M + 1) := by
  obtain ⟨pre0, hpre0⟩ := hlr
  have hnodup : ids.Nodup := sorted_nodup inv.sorted
  have hAnodup : A.Nodup := (List.nodup_append.mp (hAB ▸ hnodup)).1
  have hlvlts : ∀ x, lvlOf t x = lvlOf s x := hpr.lvl_old
  have hkeyts : ∀ x, keyOf t x = keyOf s x := hpr.key_old
  have hrid_ids : rid ∈ ids := by rw [hAB]; simp
  have hMT : M < lvlOf t rid := by rw [hlvlts]; exact hM
  have hgpre2 : gpre2 = pre0 ++ [j0] := by
    have he : gpre2 ++ rest2 = (pre0 ++ [j0]) ++ rest2 := by
      rw [← hsplit, hpre0]; simp
    exact (List.append_inj' he rfl).1
  have hj0ids : j0 ∈ ids := by rw [hpre0]; simp
  have hj0k : keyOf s j0 < k := hg j0 (by rw [hgpre2]; simp)
  have hj0rid : j0 ≠ rid := by
    intro hEq
    have := hBge rid (by simp)
    rw [← hEq] at this
    exact absurd hj0k (Nat.not_lt_of_le this)
  obtain ⟨mid, hAmid, hrmid⟩ := sandwich (fun x => keyOf s x < k) (hAB ▸ hsplit)
    hg (fun x hx => Nat.not_lt_of_le (hBge x hx))
  have hj0A : A = pre0 ++ j0 :: mid := by
    rw [hAmid, hgpre2]; simp
  have hmidlow : ∀ x ∈ mid, lvlOf s x ≤ M := by
    intro x hx
    by_contra hcon
    have hx2 : x ∈ rest2 := by rw [hrmid]; simp [hx]
    have h1 := hbreak x hx2 (Nat.lt_of_not_le hcon)
    have hxA : x ∈ A := by rw [hj0A]; simp [hx]
    exact absurd h1 (Nat.not_le_of_lt (hA x hxA))
  have hmidlowT : ∀ x ∈ mid, lvlOf t x ≤ M := by
    intro x hx
    rw [hlvlts]
    exact hmidlow x hx
  have hscT : M < lvlOf t j0 := by
    rw [hlvlts]
    exact hsc
  have ha : (nodeAt t rid).nexts.getD M none = firstL t M Btail := by
    have := hpr.node_ch M A rid Btail (by rw [if_neg (Nat.lt_irrefl M)]; exact hAB) hMT
    exact this
  rw [unlink_eq]
  have hfc : ∀ (Lq : Nat) (l : List Nat),
      firstL (setF (setF t (Loc.node j0) M ((nodeAt t rid).nexts.getD M none))
        (Loc.node rid) M none) Lq l = firstL t Lq l := by
    intro Lq l
    rw [firstL_setF, firstL_setF]
  have hridAt : nodeAt (setF (setF t (Loc.node j0) M ((nodeAt t rid).nexts.getD M none))
      (Loc.node rid) M none) rid
      = { nodeAt t rid with nexts := (nodeAt t rid).nexts.set M none } := by
    rw [nodeAt_setF_node_self, nodeAt_setF_node_ne (fun h => hj0rid h.symm)]
  have hj0At : nodeAt (setF (setF t (Loc.node j0) M ((nodeAt t rid).nexts.getD M none))
      (Loc.node rid) M none) j0
      = { nodeAt t j0 with
          nexts := (nodeAt t j0).nexts.set M ((nodeAt t rid).nexts.getD M none) } := by
    rw [nodeAt_setF_node_ne hj0rid, nodeAt_setF_node_self]
  have holdAt : ∀ x, x ≠ rid → x ≠ j0 →
      nodeAt (setF (setF t (Loc.node j0) M ((nodeAt t rid).nexts.getD M none))
        (Loc.node rid) M none) x = nodeAt t x := by
    intro x hx1 hx2
    rw [nodeAt_setF_node_ne hx1, nodeAt_setF_node_ne hx2]
  have hnodes : (setF (setF t (Loc.node j0) M ((nodeAt t rid).nexts.getD M none))
      (Loc.node rid) M none).nodes = t.nodes := rfl
  refine ⟨?_, ?_, ?_, ?_, ?_, ?_, ?_, ?_, ?_, ?_, ?_⟩
  · rw [setF_heap_length, setF_heap_length]; exact hpr.heap_len
  · intro i; rw [keyOf_setF, keyOf_setF]; exact hpr.key_old i
  · intro i; rw [valOf_setF, valOf_setF]; exact hpr.val_old i
  · intro i; rw [lvlOf_setF, lvlOf_setF]; exact hpr.lvl_old i
  · rw [setF_count, setF_count]; exact hpr.count_t
  · rw [setF_gen, setF_gen]; exact hpr.gen_t
  · rw [setF_genIdx, setF_genIdx]; exact hpr.genIdx_t
  · rw [setF_nodes_length, setF_nodes_length]; exact hpr.hlen
  · intro j
    rw [hnodes, hfc]
    by_cases hjM : j = M
    · subst hjM
      have := hpr.head_ch j
      rw [if_neg (Nat.lt_irrefl j)] at this
      rw [if_pos (by omega), this]
      have e1 : A ++ Btail = pre0 ++ j0 :: (mid ++ Btail) := by
        rw [hj0A]; simp
      have e2 : ids = pre0 ++ j0 :: (mid ++ rid :: Btail) := by
        rw [hAB, hj0A]; simp
      rw [e1, e2]
      exact firstL_append_visible hscT pre0 (mid ++ rid :: Btail) (mid ++ Btail)
    · by_cases hj : j < M
      · have := hpr.head_ch j
        rw [if_pos hj] at this
        rw [if_pos (by omega)]
        exact this
      · have := hpr.head_ch j
        rw [if_neg hj] at this
        rw [if_neg (by omega)]
        exact this
  · intro j pre x post hdec hlvl2
    have hlvl2' : j < lvlOf t x := by
      rw [lvlOf_setF, lvlOf_setF] at hlvl2
      exact hlvl2
    rw [hfc]
    by_cases hjM : j = M
    · subst hjM
      rw [if_pos (by omega)] at hdec
      rcases decomp2 hdec with ⟨A2, hA2, hpost⟩ | ⟨B1, hB1, hpre⟩
      · by_cases hxj0 : x = j0
        · subst hxj0
          obtain ⟨hpreEq, hA2Eq⟩ := nodup_decomp_unique hAnodup hA2 hj0A
          rw [hj0At]
          have hlt : j < (nodeAt t x).nexts.length := hscT
          show ((nodeAt t x).nexts.set j _).getD j none = _
          rw [getD_set_self hlt, hpost, hA2Eq, ha]
          symm
          rw [firstL_append_of_none _ (firstL_eq_none_iff.mpr hmidlowT)]
        · have hxA : x ∈ A := by rw [hA2]; simp
          have hxpre0 : x ∈ pre0 := by
            have := hj0A ▸ hxA
            rcases List.mem_append.mp this with h1 | h1
            · exact h1
            · rcases List.mem_cons.mp h1 with h2 | h2
              · exact absurd h2 hxj0
              · exfalso
                have := hmidlowT x h2
                exact absurd this (Nat.not_le_of_lt hlvl2')
          obtain ⟨pA, pB, hpA⟩ := List.append_of_mem hxpre0
          have hAx : A = pA ++ x :: (pB ++ j0 :: mid) := by
            rw [hj0A, hpA]; simp
          obtain ⟨hpreEq, hA2Eq⟩ := nodup_decomp_unique hAnodup hA2 hAx
          have hxrid : x ≠ rid := by
            intro hEq
            have := hBge rid (by simp)
            rw [← hEq] at this
            exact absurd (hA x hxA) (Nat.not_lt_of_le this)
          rw [holdAt x hxrid hxj0]
          have hids : ids = pre ++ x :: (A2 ++ rid :: Btail) := by
            rw [hAB, hA2]; simp
          have hval := hpr.node_ch j pre x (A2 ++ rid :: Btail)
            (by rw [if_neg (Nat.lt_irrefl j)]; exact hids) hlvl2'
          rw [hval, hpost, hA2Eq]
          have e1 : (pB ++ j0 :: mid) ++ rid :: Btail
              = pB ++ j0 :: (mid ++ rid :: Btail) := by simp
          have e2 : (pB ++ j0 :: mid) ++ Btail = pB ++ j0 :: (mid ++ Btail) := by simp
          rw [e1, e2]
          exact firstL_append_visible hscT pB (mid ++ rid :: Btail) (mid ++ Btail)
      · have hxB : x ∈ Btail := by rw [hB1]; simp
        have hxrid : x ≠ rid := by
          intro hEq
          subst hEq
          exact ((List.nodup_cons.mp (List.nodup_append.mp (hAB ▸ hnodup)).2.1).1)
            (hB1 ▸ (by simp : x ∈ B1 ++ x :: post))
        have hxj0 : x ≠ j0 := by
          intro hEq
          have h1 := hBge x (by simp [hxB])
          rw [hEq] at h1
          exact absurd hj0k (Nat.not_lt_of_le h1)
        rw [holdAt x hxrid hxj0]
        have hids : ids = (A ++ rid :: B1) ++ x :: post := by
          rw [hAB, hB1]; simp
        exact hpr.node_ch j (A ++ rid :: B1) x post
          (by rw [if_neg (Nat.lt_irrefl j)]; exact hids) hlvl2'
    · have hslot : ∀ y, (nodeAt (setF (setF t (Loc.node j0) M
          ((nodeAt t rid).nexts.getD M none)) (Loc.node rid) M none) y).nexts.getD j none
          = (nodeAt t y).nexts.getD j none := by
        intro y
        by_cases hy1 : y = rid
        · subst hy1
          rw [hridAt]
          show ((nodeAt t y).nexts.set M _).getD j none = _
          exact getD_set_ne hjM
        · by_cases hy2 : y = j0
          · subst hy2
            rw [hj0At]
            show ((nodeAt t y).nexts.set M _).getD j none = _
            exact getD_set_ne hjM
          · rw [holdAt y hy1 hy2]
      rw [hslot]
      by_cases hj : j < M
      · rw [if_pos (by omega)] at hdec
        refine hpr.node_ch j pre x post ?_ hlvl2'
        rw [if_pos hj]; exact hdec
      · rw [if_neg (by omega)] at hdec
        refine hpr.node_ch j pre x post ?_ hlvl2'
        rw [if_neg hj]; exact hdec
  · intro j hj hjl
    by_cases hjM : j = M
    · subst hjM
      rw [hridAt]
      show ((nodeAt t rid).nexts.set j none).getD j none = none
      by_cases hlen : j < (nodeAt t rid).nexts.length
      · exact getD_set_self hlen
      · rw [List.set_eq_of_length_le (Nat.le_of_not_lt hlen)]
        exact getD_oor (Nat.le_of_not_lt hlen)
    · have hjl' : j < lvlOf t rid := by
        rw [lvlOf_setF, lvlOf_setF] at hjl
        exact hjl
      rw [hridAt]
      show ((nodeAt t rid).nexts.set M none).getD j none = none
      rw [getD_set_ne hjM]
      exact hpr.rid_lo j (by omega) hjl'

/- remove_impl when every key is below the searched key: not found. -/

theorem visible_ge_of_break {s : SkipList} {rest2 : List Nat} {L k : Nat}
    (hp : List.Pairwise (keyLt s) rest2)
    (h : firstL s L rest2 = none ∨ ∃ j, firstL s L rest2 = some j ∧ k ≤ keyOf s j) :
    ∀ y ∈ rest2, L < lvlOf s y → k ≤ keyOf s y := by
  intro y hy hvy
  rcases h with h | ⟨j, hj, hjk⟩
  · exact absurd (firstL_eq_none_iff.mp h y hy) (Nat.not_le_of_lt hvy)
  · obtain ⟨t1, t2, hsp, ht1, _⟩ := firstL_eq_some_split hj
    rw [hsp] at hy hp
    rcases List.mem_append.mp hy with hy1 | hy2
    · exact absurd (ht1 y hy1) (Nat.not_le_of_lt hvy)
    · rcases List.mem_cons.mp hy2 with rfl | hy3
      · exact hjk
      · have h2 : keyLt s j y :=
          (List.rel_of_pairwise_cons (List.pairwise_append.mp hp).2.1) hy3
        exact Nat.le_of_lt (Nat.lt_of_le_of_lt hjk h2)

theorem remove_impl_err {s : SkipList} {ids : List Nat} (inv : InvWith s ids)
    (k : Nat) :
    ∀ L loc rest, locRest s ids loc rest → sideCond s L loc →
      (∀ x ∈ rest, keyOf s x < k) →
      remove_impl s k L loc = RRes.err := by
  intro L
  induction L with
  | zero =>
      intro loc rest hlr hsc hall
      have hflen : rest.length < s.heap.length + 1 :=
        Nat.lt_succ_of_le (Nat.le_trans (locRest_length_le hlr) (ids_length_le inv))
      obtain ⟨skipped, loc2, rest2, hsp, hks, hlr2, hsc2, heq, hout⟩ :=
        advRemove_spec inv k 0 (s.heap.length + 1) loc rest hlr hsc hflen
      have hnone : firstL s 0 rest2 = none := by
        rcases hout with h | ⟨j, hj, hjk⟩
        · exact h
        · exfalso
          have hjrest : j ∈ rest := by
            rw [hsp]
            simp [firstL_mem hj]
          exact absurd (hall j hjrest) (Nat.not_lt_of_le hjk)
      have hprobe : (getF s loc2).getD 0 none = none := by
        rw [read_slot inv hlr2 hsc2, hnone]
      simp only [remove_impl, heq, hprobe]
  | succ L ih =>
      intro loc rest hlr hsc hall
      have hflen : rest.length < s.heap.length + 1 :=
        Nat.lt_succ_of_le (Nat.le_trans (locRest_length_le hlr) (ids_length_le inv))
      obtain ⟨skipped, loc2, rest2, hsp, hks, hlr2, hsc2, heq, hout⟩ :=
        advRemove_spec inv k (L + 1) (s.heap.length + 1) loc rest hlr hsc hflen
      have hall2 : ∀ x ∈ rest2, keyOf s x < k := by
        intro x hx
        exact hall x (by rw [hsp]; simp [hx])
      have hih := ih loc2 rest2 hlr2 (sideCond_down hsc2) hall2
      simp only [remove_impl, heq, hih]

/- Successful remove_impl: the first node with key at or above the searched
key is taken out, and the intermediate invariant is unlinked up to the
calling level. -/

theorem remove_impl_ok {s : SkipList} {ids : List Nat} (inv : InvWith s ids)
    (k : Nat) {A Btail : List Nat} {rid : Nat}
    (hAB : ids = A ++ rid :: Btail) (hA : ∀ x ∈ A, keyOf s x < k)
    (hBge : ∀ x ∈ rid :: Btail, k ≤ keyOf s x) :
    ∀ L loc rest gpre, locRest s ids loc rest → ids = gpre ++ rest →
      (∀ x ∈ gpre, keyOf s x < k) → sideCond s L loc →
      ∃ t, remove_impl s k L loc = RRes.ok rid t ∧
        PartRem s ids A Btail rid t (L + 1) := by
  have hrid_ids : rid ∈ ids := by rw [hAB]; simp
  have hridlvl : 1 ≤ lvlOf s rid := inv.lvl_pos rid hrid_ids
  intro L
  induction L with
  | zero =>
      intro loc rest gpre hlr hgr hg hsc
      have hflen : rest.length < s.heap.length + 1 :=
        Nat.lt_succ_of_le (Nat.le_trans (locRest_length_le hlr) (ids_length_le inv))
      obtain ⟨skipped, loc2, rest2, hsp, hks, hlr2, hsc2, heq, hout⟩ :=
        advRemove_spec inv k 0 (s.heap.length + 1) loc rest hlr hsc hflen
      have hg2 : ∀ x ∈ gpre ++ skipped, keyOf s x < k := by
        intro x hx
        rcases List.mem_append.mp hx with h1 | h1
        · exact hg x h1
        · exact hks x h1
      have hgr2 : ids = (gpre ++ skipped) ++ rest2 := by
        rw [hgr, hsp]; simp
      obtain ⟨mid, hAmid, hrmid⟩ := sandwich (fun x => keyOf s x < k)
        (hAB ▸ hgr2) hg2 (fun x hx => Nat.not_lt_of_le (hBge x hx))
      have hmidnil : mid = [] := by
        cases mid with
        | nil => rfl
        | cons y ys =>
            exfalso
            have hyA : y ∈ A := by rw [hAmid]; simp
            have hyids : y ∈ ids := by rw [hAB]; simp [hyA]
            have hyvis : 0 < lvlOf s y := inv.lvl_pos y hyids
            have hy2 : y ∈ rest2 := by rw [hrmid]; simp
            have := visible_ge_of_break (locRest_pairwise inv.sorted hlr2) hout
              y hy2 hyvis
            exact absurd (hA y hyA) (Nat.not_lt_of_le this)
      have hrest2 : rest2 = rid :: Btail := by
        rw [hrmid, hmidnil, List.nil_append]
      have hprobe : (getF s loc2).getD 0 none = some rid := by
        rw [read_slot inv hlr2 hsc2, hrest2]
        have : 0 < lvlOf s rid := hridlvl
        simp [firstL, this]
      have hpos : ¬ lvlOf (decState s) rid ≤ 0 := by
        show ¬ lvlOf s rid ≤ 0
        omega
      have heqI : remove_impl s k 0 loc = RRes.ok rid (unlink (decState s) rid loc2 0) := by
        simp only [remove_impl, heq, hprobe]
        show (if lvlOf (decState s) rid ≤ 0 then RRes.ok rid (decState s)
            else RRes.ok rid (unlink (decState s) rid loc2 0)) = _
        rw [if_neg hpos]
      refine ⟨unlink (decState s) rid loc2 0, heqI, ?_⟩
      have hbase : PartRem s ids A Btail rid (decState s) 0 :=
        PartRem_base inv A Btail rid
      have hM0 : (0 : Nat) < lvlOf s rid := hridlvl
      cases loc2 with
      | hd =>
          have hrid2 : rest2 = ids := hlr2
          refine PartRem_unlink_hd inv hAB hA hBge hbase hM0 hsc2 ?_
          intro y hy _
          have hy2 : y ∈ rid :: Btail := by
            rw [← hrest2, hrid2]
            exact hy
          exact hBge y hy2
      | node j0 =>
          refine PartRem_unlink_node inv hAB hA hBge hbase hM0 hsc2 hlr2 hgr2 hg2 ?_
          intro y hy _
          exact hBge y (hrest2 ▸ hy)
  | succ L ih =>
      intro loc rest gpre hlr hgr hg hsc
      have hflen : rest.length < s.heap.length + 1 :=
        Nat.lt_succ_of_le (Nat.le_trans (locRest_length_le hlr) (ids_length_le inv))
      obtain ⟨skipped, loc2, rest2, hsp, hks, hlr2, hsc2, heq, hout⟩ :=
        advRemove_spec inv k (L + 1) (s.heap.length + 1) loc rest hlr hsc hflen
      have hg2 : ∀ x ∈ gpre ++ skipped, keyOf s x < k := by
        intro x hx
        rcases List.mem_append.mp hx with h1 | h1
        · exact hg x h1
        · exact hks x h1
      have hgr2 : ids = (gpre ++ skipped) ++ rest2 := by
        rw [hgr, hsp]; simp
      obtain ⟨t, hres, hpr⟩ :=
        ih loc2 rest2 (gpre ++ skipped) hlr2 hgr2 hg2 (sideCond_down hsc2)
      have hbreak2 : ∀ y ∈ rest2, L + 1 < lvlOf s y → k ≤ keyOf s y :=
        visible_ge_of_break (locRest_pairwise inv.sorted hlr2) hout
      by_cases hle : lvlOf t rid ≤ L + 1
      · have heqI : remove_impl s k (L + 1) loc = RRes.ok rid t := by
          simp only [remove_impl, heq, hres, if_pos hle]
        refine ⟨t, heqI, ?_⟩
        refine PartRem_up hAB hpr ?_
        rw [← hpr.lvl_old]
        exact hle
      · have heqI : remove_impl s k (L + 1) loc = RRes.ok rid
            (unlink t rid loc2 (L + 1)) := by
          simp only [remove_impl, heq, hres, if_neg hle]
        refine ⟨_, heqI, ?_⟩
        have hM : L + 1 < lvlOf s rid := by
          rw [← hpr.lvl_old]
          omega
        cases loc2 with
        | hd =>
            have hrid2 : rest2 = ids := hlr2
            refine PartRem_unlink_hd inv hAB hA hBge hpr hM hsc2 ?_
            intro y hy hvy
            exact hbreak2 y (hrid2 ▸ hy) hvy
        | node j0 =>
            exact PartRem_unlink_node inv hAB hA hBge hpr hM hsc2 hlr2 hgr2 hg2 hbreak2

/- Top level remove. -/

theorem remove_missing {s : SkipList} {ids : List Nat} (inv : InvWith s ids)
    {k : Nat} (hall : ∀ x ∈ ids, keyOf s x < k) :
    SkipList.remove s k = OpRes.ok (Except.error ()) s := by
  have hsc : sideCond s (s.nodes.length - 1) Loc.hd := by
    have := inv.head_pos
    show s.nodes.length - 1 < s.nodes.length
    omega
  have herr := remove_impl_err inv k (s.nodes.length - 1) Loc.hd ids rfl hsc hall
  simp only [SkipList.remove, herr]

theorem remove_found {s : SkipList} {ids : List Nat} (inv : InvWith s ids)
    {k : Nat} {A Btail : List Nat} {rid : Nat}
    (hAB : ids = A ++ rid :: Btail) (hA : ∀ x ∈ A, keyOf s x < k)
    (hBge : ∀ x ∈ rid :: Btail, k ≤ keyOf s x) :
    ∃ t, SkipList.remove s k = OpRes.ok (Except.ok (keyOf s rid, valOf s rid)) t ∧
      InvWith t (A ++ Btail) ∧
      (∀ i, keyOf t i = keyOf s i ∧ valOf t i = valOf s i ∧ lvlOf t i = lvlOf s i) ∧
      t.count = s.count - 1 ∧ 1 ≤ s.count ∧
      t.heap.length = s.heap.length ∧ t.genIdx = s.genIdx ∧ t.gen = s.gen ∧
      t.nodes.length = s.nodes.length := by
  have hlen1 : 1 ≤ s.nodes.length := inv.head_pos
  have hsc : sideCond s (s.nodes.length - 1) Loc.hd := by
    show s.nodes.length - 1 < s.nodes.length
    omega
  obtain ⟨t, hres, hpr0⟩ := remove_impl_ok inv k hAB hA hBge
    (s.nodes.length - 1) Loc.hd ids [] rfl (by simp) (by intro x hx; cases hx) hsc
  have hM : s.nodes.length - 1 + 1 = s.nodes.length := by omega
  rw [hM] at hpr0
  have hpr : PartRem s ids A Btail rid t s.nodes.length := hpr0
  have hmem : ∀ x ∈ A ++ Btail, x ∈ ids := by
    intro x hx
    rw [hAB]
    rcases List.mem_append.mp hx with h1 | h1
    · simp [h1]
    · simp [h1]
  have heqR : SkipList.remove s k
      = OpRes.ok (Except.ok (keyOf s rid, valOf s rid)) t := by
    simp only [SkipList.remove, hres, hpr.key_old, hpr.val_old]
  refine ⟨t, heqR, ?_, fun i => ⟨hpr.key_old i, hpr.val_old i, hpr.lvl_old i⟩,
    hpr.count_t, ?_, hpr.heap_len, hpr.genIdx_t, hpr.gen_t, hpr.hlen⟩
  · refine ⟨?_, ?_, ?_, ?_, ?_, ?_, ?_, ?_⟩
    · have hkeq : keyLt t = keyLt s := by
        funext a b
        rw [keyLt, keyLt, hpr.key_old, hpr.key_old]
      rw [hkeq]
      refine List.Pairwise.sublist ?_ (hAB ▸ inv.sorted)
      exact List.Sublist.append_left (List.sublist_cons_self rid Btail) A
    · intro x hx
      rw [hpr.heap_len]
      exact inv.valid x (hmem x hx)
    · intro x hx
      rw [hpr.lvl_old]
      exact inv.lvl_pos x (hmem x hx)
    · intro x hx
      rw [hpr.lvl_old, hpr.hlen]
      exact inv.lvl_le x (hmem x hx)
    · rw [hpr.hlen]
      exact inv.head_pos
    · rw [hpr.count_t, inv.count_eq, hAB]
      simp
    · intro L
      by_cases hL : L < s.nodes.length
      · have := hpr.head_ch L
        rw [if_pos hL] at this
        exact this
      · have hLt : t.nodes.length ≤ L := by rw [hpr.hlen]; omega
        rw [getD_oor hLt]
        symm
        rw [firstL_eq_none_iff]
        intro y hy
        rw [hpr.lvl_old]
        exact Nat.le_trans (inv.lvl_le y (hmem y hy)) (by omega)
    · intro L pre x post hdec hlvl
      have hx : x ∈ ids := hmem x (by rw [hdec]; simp)
      have hL : L < s.nodes.length := by
        have h1 : lvlOf t x = lvlOf s x := hpr.lvl_old x
        have h2 := inv.lvl_le x hx
        omega
      refine hpr.node_ch L pre x post ?_ hlvl
      rw [if_pos hL]
      exact hdec
  · have h1 := inv.count_eq
    rw [hAB] at h1
    simp at h1
    omega

/- The walk of search, characterised through the insert walk. -/

theorem advSearch_spec {s : SkipList} {ids : List Nat} (inv : InvWith s ids)
    (k L : Nat) :
    ∀ fuel loc rest, locRest s ids loc rest → sideCond s L loc →
      rest.length < fuel →
      ∃ skipped loc2 rest2,
        rest = skipped ++ rest2 ∧ (∀ x ∈ skipped, keyOf s x < k) ∧
        locRest s ids loc2 rest2 ∧ sideCond s L loc2 ∧
        advSearch s k L fuel loc = some loc2 ∧
        (firstL s L rest2 = none ∨
          ∃ j, firstL s L rest2 = some j ∧ k ≤ keyOf s j) := by
  intro fuel loc rest hlr hsc hflen
  obtain ⟨skipped, loc2, rest2, hsp, hks, hlr2, hsc2, hout⟩ :=
    advInsert_spec inv k L fuel loc rest hlr hsc hflen
  refine ⟨skipped, loc2, rest2, hsp, hks, hlr2, hsc2, ?_, ?_⟩
  · refine advSearch_of_advInsert fuel loc loc2 ?_
    rcases hout with ⟨_, h⟩ | ⟨j, _, _, h⟩ | ⟨_, _, _, h⟩
    · exact Or.inl h
    · exact Or.inr h
    · exact Or.inl h
  · rcases hout with ⟨h, _⟩ | ⟨j, hj, hjk, _⟩ | ⟨j, hj, hjk, _⟩
    · exact Or.inl h
    · exact Or.inr ⟨j, hj, Nat.le_of_eq hjk.symm⟩
    · exact Or.inr ⟨j, hj, Nat.le_of_lt hjk⟩

/- The outer loop of search over the levels. -/

theorem searchLevels_spec {s : SkipList} {ids : List Nat} (inv : InvWith s ids)
    (k : Nat) :
    ∀ n loc rest gpre, locRest s ids loc rest → ids = gpre ++ rest →
      (∀ x ∈ gpre, keyOf s x < k) → 1 ≤ n → sideCond s (n - 1) loc →
      ∃ loc2 rest2 gpre2, searchLevels s k n loc = some loc2 ∧
        locRest s ids loc2 rest2 ∧ ids = gpre2 ++ rest2 ∧
        (∀ x ∈ gpre2, keyOf s x < k) ∧ (∀ y ∈ rest2, k ≤ keyOf s y) ∧
        sideCond s 0 loc2 := by
  intro n
  induction n with
  | zero => intro loc rest gpre _ _ _ h1; exact absurd h1 (by omega)
  | succ n ih =>
      intro loc rest gpre hlr hgr hg _ hsc
      have hflen : rest.length < s.heap.length + 1 :=
        Nat.lt_succ_of_le (Nat.le_trans (locRest_length_le hlr) (ids_length_le inv))
      have hsc' : sideCond s n loc := by
        have : n + 1 - 1 = n := by omega
        rw [this] at hsc
        exact hsc
      obtain ⟨skipped, loc2, rest2, hsp, hks, hlr2, hsc2, hadv, hout⟩ :=
        advSearch_spec inv k n (s.heap.length + 1) loc rest hlr hsc' hflen
      have hg2 : ∀ x ∈ gpre ++ skipped, keyOf s x < k := by
        intro x hx
        rcases List.mem_append.mp hx with h1 | h1
        · exact hg x h1
        · exact hks x h1
      have hgr2 : ids = (gpre ++ skipped) ++ rest2 := by
        rw [hgr, hsp]; simp
      cases n with
      | zero =>
          -- the last level processed was level 0: the break gives the bound
          have hge : ∀ y ∈ rest2, k ≤ keyOf s y := by
            intro y hy
            refine visible_ge_of_break (locRest_pairwise inv.sorted hlr2) hout y hy ?_
            exact inv.lvl_pos y (locRest_subset hlr2 y hy)
          have heq1 : searchLevels s k 1 loc = some loc2 := by
            simp only [searchLevels, hadv]
          exact ⟨loc2, rest2, gpre ++ skipped, heq1, hlr2, hgr2, hg2, hge, hsc2⟩
      | succ m =>
          obtain ⟨loc3, rest3, gpre3, hsl, hlr3, hgr3, hg3, hge3, hsc3⟩ :=
            ih loc2 rest2 (gpre ++ skipped) hlr2 hgr2 hg2 (by omega)
              (by
                have : m + 1 - 1 = m := by omega
                rw [this]
                exact sideCond_down hsc2)
          refine ⟨loc3, rest3, gpre3, ?_, hlr3, hgr3, hg3, hge3, hsc3⟩
          simp only [searchLevels, hadv]
          exact hsl

/- Search characterisation. -/

theorem search_absent {s : SkipList} {ids : List Nat} (inv : InvWith s ids)
    {k : Nat} (hnone : ∀ x ∈ ids, keyOf s x ≠ k) :
    SkipList.search s k = some none := by
  have hlen1 : 1 ≤ s.nodes.length := inv.head_pos
  have hsc : sideCond s (s.nodes.length - 1) Loc.hd := by
    show s.nodes.length - 1 < s.nodes.length
    omega
  obtain ⟨loc2, rest2, gpre2, hsl, hlr2, hgr2, hg2, hge2, hsc2⟩ :=
    searchLevels_spec inv k s.nodes.length Loc.hd ids [] rfl (by simp)
      (by intro x hx; cases hx) hlen1 hsc
  have hprobe : (getF s loc2).getD 0 none = firstL s 0 rest2 :=
    read_slot inv hlr2 hsc2
  cases hr : rest2 with
  | nil =>
      have hfl : firstL s 0 rest2 = none := by rw [hr]; rfl
      simp only [SkipList.search, hsl, hprobe, hfl]
  | cons y ys =>
      have hyids : y ∈ ids := locRest_subset hlr2 y (by rw [hr]; simp)
      have hyvis : 0 < lvlOf s y := inv.lvl_pos y hyids
      have hfl : firstL s 0 rest2 = some y := by
        rw [hr]
        simp [firstL, hyvis]
      have hyk : ¬ keyOf s y = k := hnone y hyids
      simp only [SkipList.search, hsl, hprobe, hfl]
      rw [if_neg hyk]

theorem search_found {s : SkipList} {ids : List Nat} (inv : InvWith s ids)
    {k : Nat} {A Bt : List Nat} {x : Nat}
    (hAB : ids = A ++ x :: Bt) (hA : ∀ y ∈ A, keyOf s y < k)
    (hxk : keyOf s x = k) :
    SkipList.search s k = some (some (valOf s x)) := by
  have hlen1 : 1 ≤ s.nodes.length := inv.head_pos
  have hsc : sideCond s (s.nodes.length - 1) Loc.hd := by
    show s.nodes.length - 1 < s.nodes.length
    omega
  obtain ⟨loc2, rest2, gpre2, hsl, hlr2, hgr2, hg2, hge2, hsc2⟩ :=
    searchLevels_spec inv k s.nodes.length Loc.hd ids [] rfl (by simp)
      (by intro y hy; cases hy) hlen1 hsc
  have hprobe : (getF s loc2).getD 0 none = firstL s 0 rest2 :=
    read_slot inv hlr2 hsc2
  obtain ⟨mid, hmid1, hmid2⟩ := sandwich (fun y => keyOf s y < k)
    (by rw [← hgr2, ← hAB]) hA (fun y hy => Nat.not_lt_of_le (hge2 y hy))
  cases mid with
  | nil =>
      have hrest2 : rest2 = x :: Bt := by simpa using hmid2.symm
      have hxvis : 0 < lvlOf s x :=
        inv.lvl_pos x (by rw [hAB]; simp)
      have hfl : firstL s 0 rest2 = some x := by
        rw [hrest2]
        simp [firstL, hxvis]
      simp only [SkipList.search, hsl, hprobe, hfl]
      rw [if_pos hxk]
  | cons y ys =>
      exfalso
      have h2 : x :: Bt = y :: (ys ++ rest2) := by simpa using hmid2
      injection h2 with hxy _
      have hyg : y ∈ gpre2 := by rw [hmid1]; simp
      have := hg2 y hyg
      rw [← hxy, hxk] at this
      exact Nat.lt_irrefl _ this

/- Chains and iterators. -/

theorem chainFrom_of_inv {s : SkipList} {ids : List Nat} (inv : InvWith s ids)
    (L : Nat) :
    ∀ fuel rest gpre, ids = gpre ++ rest → rest.length < fuel →
      chainFrom s L fuel (firstL s L rest)
        = some (rest.filter (fun i => decide (L < lvlOf s i))) := by
  intro fuel
  induction fuel with
  | zero =>
      intro rest gpre _ h
      exact absurd h (Nat.not_lt_zero _)
  | succ fuel ih =>
      intro rest gpre hgr hlen
      cases hfl : firstL s L rest with
      | none =>
          rw [filter_of_firstL_none hfl]
          rfl
      | some j =>
          obtain ⟨t1, t2, hsp, ht1, hvj⟩ := firstL_eq_some_split hfl
          have hnext : (nodeAt s j).nexts.getD L none = firstL s L t2 := by
            refine inv.node_ch L (gpre ++ t1) j t2 ?_ hvj
            rw [hgr, hsp]; simp
          have hrec := ih t2 (gpre ++ t1 ++ [j])
            (by rw [hgr, hsp]; simp) (by rw [hsp] at hlen; simp at hlen; omega)
          have hfilter : rest.filter (fun i => decide (L < lvlOf s i))
              = j :: t2.filter (fun i => decide (L < lvlOf s i)) := by
            rw [hsp, filter_invisible_prefix _ ht1, List.filter_cons]
            simp [hvj]
          rw [hfilter]
          show (chainFrom s L fuel ((nodeAt s j).nexts.getD L none)).map _ = _
          rw [hnext, hrec]
          rfl

theorem chainAt_of_inv {s : SkipList} {ids : List Nat} (inv : InvWith s ids)
    (L : Nat) :
    chainAt s L = some (ids.filter (fun i => decide (L < lvlOf s i))) := by
  rw [chainAt, inv.head_ch L]
  exact chainFrom_of_inv inv L (s.heap.length + 1) ids []
    (by simp) (Nat.lt_succ_of_le (ids_length_le inv))

theorem chainAt_zero_of_inv {s : SkipList} {ids : List Nat} (inv : InvWith s ids) :
    chainAt s 0 = some ids := by
  rw [chainAt_of_inv inv 0]
  congr 1
  rw [List.filter_eq_self]
  intro x hx
  simpa using inv.lvl_pos x hx

theorem iterFrom_eq_chainFrom (s : SkipList) :
    ∀ fuel o, iterFrom s fuel o
      = (chainFrom s 0 fuel o).map (List.map (fun i => (keyOf s i, valOf s i))) := by
  intro fuel
  induction fuel with
  | zero => intro o; rfl
  | succ fuel ih =>
      intro o
      cases o with
      | none => rfl
      | some i =>
          show (iterFrom s fuel ((nodeAt s i).nexts.getD 0 none)).map _
            = ((chainFrom s 0 fuel ((nodeAt s i).nexts.getD 0 none)).map
                (fun l => i :: l)).map _
          rw [ih]
          cases chainFrom s 0 fuel ((nodeAt s i).nexts.getD 0 none) <;> rfl

theorem iter_of_inv {s : SkipList} {ids : List Nat} (inv : InvWith s ids) :
    SkipList.iter s = some (ids.map (fun i => (keyOf s i, valOf s i))) := by
  have h1 : SkipList.iter s
      = (chainAt s 0).map (List.map (fun i => (keyOf s i, valOf s i))) := by
    rw [SkipList.iter, chainAt, iterFrom_eq_chainFrom]
  rw [h1, chainAt_zero_of_inv inv]
  rfl

/- Well formedness of the empty structure and preservation by steps. -/

theorem WF_new (g : Nat → Bool) : InvWith (SkipList.new g) [] := by
  refine ⟨List.Pairwise.nil, ?_, ?_, ?_, ?_, rfl, ?_, ?_⟩
  · intro i hi; cases hi
  · intro i hi; cases hi
  · intro i hi; cases hi
  · show 1 ≤ 1
    exact Nat.le_refl 1
  · intro L
    show [(none : Option Nat)].getD L none = firstL (SkipList.new g) L []
    cases L with
    | zero => rfl
    | succ m => rfl
  · intro L pre x post hdec _
    exfalso
    cases pre <;> simp at hdec

/-- Split a list at its first element failing the predicate. -/
theorem split_first (P : Nat → Prop) [DecidablePred P] :
    ∀ l : List Nat, ∃ A rest, l = A ++ rest ∧ (∀ x ∈ A, P x) ∧
      (rest = [] ∨ ∃ y ys, rest = y :: ys ∧ ¬ P y) := by
  intro l
  induction l with
  | nil => exact ⟨[], [], rfl, by simp, Or.inl rfl⟩
  | cons a t ih =>
      by_cases ha : P a
      · obtain ⟨A, rest, h1, h2, h3⟩ := ih
        refine ⟨a :: A, rest, by rw [h1]; rfl, ?_, h3⟩
        intro x hx
        rcases List.mem_cons.mp hx with rfl | hx2
        · exact ha
        · exact h2 x hx2
      · exact ⟨[], a :: t, rfl, by simp, Or.inr ⟨a, t, rfl, ha⟩⟩

theorem WF_step {s : SkipList} (h : WF s) (op : Op) : WF (stepOp s op) := by
  obtain ⟨ids, inv⟩ := h
  cases op with
  | ins k v =>
      by_cases hp : ∃ x, x ∈ ids ∧ keyOf s x = k
      · have he := insert_present inv v hp
        show WF (insAfter s k v)
        rw [insAfter, he]
        exact ⟨ids, inv⟩
      · have hk : ∀ x ∈ ids, keyOf s x ≠ k := by
          intro x hx hEq
          exact hp ⟨x, hx, hEq⟩
        obtain ⟨A, B, t2, _, _, _, he, hinv2, _⟩ := insert_absent inv k v hk
        show WF (insAfter s k v)
        rw [insAfter, he]
        exact ⟨A ++ s.heap.length :: B, hinv2⟩
  | del k =>
      obtain ⟨A, rest, hsp, hA, hrest⟩ :=
        split_first (fun x => keyOf s x < k) ids
      rcases hrest with hnil | ⟨rid, Btail, hcons, hge⟩
      · have hall : ∀ x ∈ ids, keyOf s x < k := by
          intro x hx
          rw [hsp, hnil, List.append_nil] at hx
          exact hA x hx
        have he := remove_missing inv hall
        show WF (rmAfter s k)
        rw [rmAfter, he]
        exact ⟨ids, inv⟩
      · have hAB : ids = A ++ rid :: Btail := by rw [hsp, hcons]
        have hBge : ∀ x ∈ rid :: Btail, k ≤ keyOf s x := by
          intro x hx
          rcases List.mem_cons.mp hx with rfl | hx2
          · exact Nat.le_of_not_lt hge
          · have hpw : List.Pairwise (keyLt s) (rid :: Btail) :=
              (List.pairwise_append.mp (hAB ▸ inv.sorted)).2.1
            have h1 : keyLt s rid x := (List.rel_of_pairwise_cons hpw) hx2
            exact Nat.le_of_lt (Nat.lt_of_le_of_lt (Nat.le_of_not_lt hge) h1)
        obtain ⟨t, he, hinv2, _⟩ := remove_found inv hAB hA hBge
        show WF (rmAfter s k)
        rw [rmAfter, he]
        exact ⟨A ++ Btail, hinv2⟩

theorem reachable_WF {s : SkipList} (h : Reachable s) : WF s := by
  induction h with
  | new g => exact ⟨[], WF_new g⟩
  | step s op _ ih => exact WF_step ih op

/- Counting and auxiliary facts for the claims. -/

theorem mem_key_split {s : SkipList} {ids : List Nat} (inv : InvWith s ids)
    {x k : Nat} (hx : x ∈ ids) (hk : keyOf s x = k) :
    ∃ A Bt, ids = A ++ x :: Bt ∧ ∀ y ∈ A, keyOf s y < k := by
  obtain ⟨A, Bt, hAB⟩ := List.append_of_mem hx
  refine ⟨A, Bt, hAB, ?_⟩
  intro y hy
  have hcross := (List.pairwise_append.mp (hAB ▸ inv.sorted)).2.2
  have h1 : keyLt s y x := hcross y hy x (by simp)
  rw [← hk]
  exact h1

theorem count_op {s : SkipList} (h : WF s) (op : Op) :
    (stepOp s op).count + (tallyOp s op).2 = s.count + (tallyOp s op).1 := by
  obtain ⟨ids, inv⟩ := h
  cases op with
  | ins k v =>
      by_cases hp : ∃ x, x ∈ ids ∧ keyOf s x = k
      · have he := insert_present inv v hp
        simp only [stepOp, insAfter, tallyOp, insResult, he]
      · have hk : ∀ x ∈ ids, keyOf s x ≠ k := by
          intro x hx hEq
          exact hp ⟨x, hx, hEq⟩
        obtain ⟨A, B, t2, hAB, hA, hB, he, hinv2, hkey, hval, hold, hcount,
          hheap, hgi, hgen, hlvl⟩ := insert_absent inv k v hk
        simp only [stepOp, insAfter, tallyOp, insResult, he, hcount]
  | del k =>
      obtain ⟨A, rest, hsp, hA, hrest⟩ :=
        split_first (fun x => keyOf s x < k) ids
      rcases hrest with hnil | ⟨rid, Btail, hcons, hge⟩
      · have hall : ∀ x ∈ ids, keyOf s x < k := by
          intro x hx
          rw [hsp, hnil, List.append_nil] at hx
          exact hA x hx
        have he := remove_missing inv hall
        simp only [stepOp, rmAfter, tallyOp, rmResult, he]
      · have hAB : ids = A ++ rid :: Btail := by rw [hsp, hcons]
        have hBge : ∀ x ∈ rid :: Btail, k ≤ keyOf s x := by
          intro x hx
          rcases List.mem_cons.mp hx with rfl | hx2
          · exact Nat.le_of_not_lt hge
          · have hpw : List.Pairwise (keyLt s) (rid :: Btail) :=
              (List.pairwise_append.mp (hAB ▸ inv.sorted)).2.1
            have h1 : keyLt s rid x := (List.rel_of_pairwise_cons hpw) hx2
            exact Nat.le_of_lt (Nat.lt_of_le_of_lt (Nat.le_of_not_lt hge) h1)
        obtain ⟨t, he, hinv2, hold, hcount, hpos, _⟩ := remove_found inv hAB hA hBge
        simp only [stepOp, rmAfter, tallyOp, rmResult, he, hcount]
        omega

theorem runTally_eq {s : SkipList} (h : WF s) :
    ∀ ops : List Op,
      (runTally s ops).2.1 + s.count
        = (runTally s ops).1.count + (runTally s ops).2.2 := by
  intro ops
  induction ops generalizing s with
  | nil =>
      show 0 + s.count = s.count + 0
      omega
  | cons op rest ih =>
      have hco := count_op h op
      have ih2 := ih (WF_step h op)
      show (tallyOp s op).1 + (runTally (stepOp s op) rest).2.1 + s.count
        = (runTally (stepOp s op) rest).1.count
          + ((tallyOp s op).2 + (runTally (stepOp s op) rest).2.2)
      omega

theorem InvWith_setG {s : SkipList} {ids : List Nat} (g : Nat → Bool)
    (inv : InvWith s ids) : InvWith (setG s g) ids := by
  have hfl : ∀ L l, firstL (setG s g) L l = firstL s L l := by
    intro L l
    exact @firstL_congr s (setG s g) L l (fun x _ => rfl)
  refine ⟨inv.sorted, inv.valid, inv.lvl_pos, inv.lvl_le, inv.head_pos,
    inv.count_eq, ?_, ?_⟩
  · intro L
    rw [hfl]
    exact inv.head_ch L
  · intro L pre x post hdec hlt
    rw [hfl]
    exact inv.node_ch L pre x post hdec hlt

/- The claims. -/

/-- C2: for every key k already present with some value v1 and every value
v2, insert(k, v2) fails, returns exactly the pair (k, v2), and leaves the
structure unchanged: search(k) still yields v1, the count is unchanged, and
no node is allocated. -/
theorem C2_duplicate_insert_rejected {s : SkipList} {k v1 : Nat} (v2 : Nat)
    (hr : Reachable s) (hs : SkipList.search s k = some (some v1)) :
    insResult s k v2 = some (Except.error (k, v2)) ∧ insAfter s k v2 = s ∧
    (insAfter s k v2).count = s.count ∧
    (insAfter s k v2).heap.length = s.heap.length ∧
    SkipList.search (insAfter s k v2) k = some (some v1) := by
  obtain ⟨ids, inv⟩ := reachable_WF hr
  by_cases hp : ∃ x, x ∈ ids ∧ keyOf s x = k
  · have he := insert_present inv v2 hp
    have h1 : insAfter s k v2 = s := by simp only [insAfter, he]
    refine ⟨by simp only [insResult, he], h1, by rw [h1], by rw [h1], by rw [h1]; exact hs⟩
  · have hk : ∀ x ∈ ids, keyOf s x ≠ k := by
      intro x hx hEq
      exact hp ⟨x, hx, hEq⟩
    rw [search_absent inv hk] at hs
    simp at hs

/-- C2 witness: in the reachable one element state holding the pair (1, 10),
inserting (1, 99) is rejected and changes nothing. -/
theorem C2_duplicate_insert_rejected_witness :
    Reachable (stepOp (SkipList.new (fun _ => false)) (Op.ins 1 10)) ∧
    SkipList.search (stepOp (SkipList.new (fun _ => false)) (Op.ins 1 10)) 1
      = some (some 10) ∧
    (insResult (stepOp (SkipList.new (fun _ => false)) (Op.ins 1 10)) 1 99
        = some (Except.error (1, 99)) ∧
      insAfter (stepOp (SkipList.new (fun _ => false)) (Op.ins 1 10)) 1 99
        = stepOp (SkipList.new (fun _ => false)) (Op.ins 1 10) ∧
      (insAfter (stepOp (SkipList.new (fun _ => false)) (Op.ins 1 10)) 1 99).count
        = (stepOp (SkipList.new (fun _ => false)) (Op.ins 1 10)).count ∧
      (insAfter (stepOp (SkipList.new (fun _ => false)) (Op.ins 1 10)) 1 99).heap.length
        = (stepOp (SkipList.new (fun _ => false)) (Op.ins 1 10)).heap.length ∧
      SkipList.search (insAfter (stepOp (SkipList.new (fun _ => false)) (Op.ins 1 10)) 1 99) 1
        = some (some 10)) :=
  ⟨Reachable.step _ (Op.ins 1 10) (Reachable.new _), rfl,
    C2_duplicate_insert_rejected 99
      (Reachable.step _ (Op.ins 1 10) (Reachable.new _)) rfl⟩

/-- C3: for every key k not currently present (search returns nothing) and
every value v, insert(k, v) succeeds and immediately afterwards search(k)
returns the value v, for every reachable prior state and level source. -/
theorem C3_insert_then_search {s : SkipList} {k : Nat} (v : Nat)
    (hr : Reachable s) (hs : SkipList.search s k = some none) :
    insResult s k v = some (Except.ok ()) ∧
    SkipList.search (insAfter s k v) k = some (some v) := by
  obtain ⟨ids, inv⟩ := reachable_WF hr
  have hk : ∀ x ∈ ids, keyOf s x ≠ k := by
    intro x hx hEq
    obtain ⟨A, Bt, hAB, hA⟩ := mem_key_split inv hx hEq
    rw [search_found inv hAB hA hEq] at hs
    simp at hs
  obtain ⟨A, B, t2, hAB, hA, hB, he, hinv2, hkey, hval, hold, hcount, hheap,
    hgi, hgen, hlvl⟩ := insert_absent inv k v hk
  have h1 : insAfter s k v = t2 := by simp only [insAfter, he]
  refine ⟨by simp only [insResult, he], ?_⟩
  rw [h1, ← hval]
  refine search_found hinv2 rfl ?_ hkey
  intro y hy
  have hyid : y ∈ ids := by
    rw [hAB]
    exact List.mem_append.mpr (Or.inl hy)
  have hyvalid : y < s.heap.length := inv.valid y hyid
  rw [(hold y hyvalid).1]
  exact hA y hy

/-- C3 witness: on the reachable empty structure, key 2 is absent; inserting
(2, 20) succeeds and search then yields 20. -/
theorem C3_insert_then_search_witness :
    Reachable (SkipList.new (fun _ => false)) ∧
    SkipList.search (SkipList.new (fun _ => false)) 2 = some none ∧
    (insResult (SkipList.new (fun _ => false)) 2 20 = some (Except.ok ()) ∧
      SkipList.search (insAfter (SkipList.new (fun _ => false)) 2 20) 2
        = some (some 20)) :=
  ⟨Reachable.new _, rfl,
    C3_insert_then_search 20 (Reachable.new _) rfl⟩

/-- C5: at every point in every operation sequence starting from new(), the
count equals the number of successful inserts minus the number of successful
removes so far (stated over Nat as: successful inserts = count + successful
removes); failed operations leave the count unchanged. -/
theorem C5_count_consistency (g : Nat → Bool) (ops : List Op) :
    (runTally (SkipList.new g) ops).2.1
      = (runTally (SkipList.new g) ops).1.count
        + (runTally (SkipList.new g) ops).2.2 := by
  have h := runTally_eq ⟨[], WF_new g⟩ ops
  have hc : (SkipList.new g).count = 0 := rfl
  omega

/-- C6: every successful insert performed on a reachable state allocates its
new node with a level that is at least 1, equals 1 when the pre-insert count
is 0, is at most floor(log2 count) + 1 when the pre-insert count is at least
1, and within the cap equals 1 plus the number of consecutive true outcomes
drawn from the level source. -/
theorem C6_level_cap {s : SkipList} {k v : Nat} (hr : Reachable s)
    (hok : insResult s k v = some (Except.ok ())) :
    1 ≤ lvlOf (insAfter s k v) s.heap.length ∧
    (s.count = 0 → lvlOf (insAfter s k v) s.heap.length = 1) ∧
    (1 ≤ s.count →
      lvlOf (insAfter s k v) s.heap.length ≤ Nat.log 2 s.count + 1) ∧
    lvlOf (insAfter s k v) s.heap.length
      = 1 + capTrues s.gen (bitLen s.count - 1) s.genIdx := by
  obtain ⟨ids, inv⟩ := reachable_WF hr
  by_cases hp : ∃ x, x ∈ ids ∧ keyOf s x = k
  · rw [insResult, insert_present inv v hp] at hok
    simp at hok
  · have hk : ∀ x ∈ ids, keyOf s x ≠ k := by
      intro x hx hEq
      exact hp ⟨x, hx, hEq⟩
    obtain ⟨A, B, t2, hAB, hA, hB, he, hinv2, hkey, hval, hold, hcount, hheap,
      hgi, hgen, hlvl⟩ := insert_absent inv k v hk
    have h1 : insAfter s k v = t2 := by simp only [insAfter, he]
    rw [h1, hlvl]
    refine ⟨newLvl_pos s, ?_, ?_, newLvl_eq_capTrues s⟩
    · intro h0
      exact newLvl_of_small (by omega)
    · intro h1c
      have hm := newLvl_le_max s
      rw [bitLen_eq_log s.count h1c] at hm
      rw [Nat.max_eq_right (by omega)] at hm
      exact hm

/-- C6 witness: inserting key 2 into the reachable one element state holding
(1, 10) succeeds, and the allocated node's level obeys all four bounds. -/
theorem C6_level_cap_witness :
    Reachable (stepOp (SkipList.new (fun _ => false)) (Op.ins 1 10)) ∧
    insResult (stepOp (SkipList.new (fun _ => false)) (Op.ins 1 10)) 2 20
      = some (Except.ok ()) ∧
    (1 ≤ lvlOf (insAfter (stepOp (SkipList.new (fun _ => false)) (Op.ins 1 10)) 2 20)
        (stepOp (SkipList.new (fun _ => false)) (Op.ins 1 10)).heap.length ∧
      ((stepOp (SkipList.new (fun _ => false)) (Op.ins 1 10)).count = 0 →
        lvlOf (insAfter (stepOp (SkipList.new (fun _ => false)) (Op.ins 1 10)) 2 20)
          (stepOp (SkipList.new (fun _ => false)) (Op.ins 1 10)).heap.length = 1) ∧
      (1 ≤ (stepOp (SkipList.new (fun _ => false)) (Op.ins 1 10)).count →
        lvlOf (insAfter (stepOp (SkipList.new (fun _ => false)) (Op.ins 1 10)) 2 20)
            (stepOp (SkipList.new (fun _ => false)) (Op.ins 1 10)).heap.length
          ≤ Nat.log 2 (stepOp (SkipList.new (fun _ => false)) (Op.ins 1 10)).count + 1) ∧
      lvlOf (insAfter (stepOp (SkipList.new (fun _ => false)) (Op.ins 1 10)) 2 20)
          (stepOp (SkipList.new (fun _ => false)) (Op.ins 1 10)).heap.length
        = 1 + capTrues (stepOp (SkipList.new (fun _ => false)) (Op.ins 1 10)).gen
            (bitLen (stepOp (SkipList.new (fun _ => false)) (Op.ins 1 10)).count - 1)
            (stepOp (SkipList.new (fun _ => false)) (Op.ins 1 10)).genIdx) :=
  ⟨Reachable.step _ (Op.ins 1 10) (Reachable.new _), rfl,
    C6_level_cap (Reachable.step _ (Op.ins 1 10) (Reachable.new _)) rfl⟩

/-- C7: after every sequence of operations, for every level L, the chain
obtained by following the head vector's link at L and then each node's
forward link at L visits exactly the stored nodes whose level exceeds L, in
strictly ascending key order; the level 0 chain visits every stored node
exactly once in ascending key order. -/
theorem C7_per_level_chains {s : SkipList} (hr : Reachable s) :
    ∃ ids, chainAt s 0 = some ids ∧ List.Pairwise (keyLt s) ids ∧
      ids.Nodup ∧
      ∀ L, chainAt s L = some (ids.filter (fun i => decide (L < lvlOf s i))) := by
  obtain ⟨ids, inv⟩ := reachable_WF hr
  exact ⟨ids, chainAt_zero_of_inv inv, inv.sorted, sorted_nodup inv.sorted,
    fun L => chainAt_of_inv inv L⟩

/-- C7 witness: the chains exist in the reachable two element state holding
(1, 10) and (3, 30). -/
theorem C7_per_level_chains_witness :
    Reachable (stepOp (stepOp (SkipList.new (fun _ => false)) (Op.ins 1 10)) (Op.ins 3 30)) ∧
    ∃ ids,
      chainAt (stepOp (stepOp (SkipList.new (fun _ => false)) (Op.ins 1 10)) (Op.ins 3 30)) 0
        = some ids ∧
      List.Pairwise (keyLt (stepOp (stepOp (SkipList.new (fun _ => false)) (Op.ins 1 10)) (Op.ins 3 30))) ids ∧
      ids.Nodup ∧
      ∀ L, chainAt (stepOp (stepOp (SkipList.new (fun _ => false)) (Op.ins 1 10)) (Op.ins 3 30)) L
        = some (ids.filter (fun i => decide
            (L < lvlOf (stepOp (stepOp (SkipList.new (fun _ => false)) (Op.ins 1 10)) (Op.ins 3 30)) i))) :=
  ⟨Reachable.step _ (Op.ins 3 30) (Reachable.step _ (Op.ins 1 10) (Reachable.new _)),
    C7_per_level_chains
      (Reachable.step _ (Op.ins 3 30) (Reachable.step _ (Op.ins 1 10) (Reachable.new _)))⟩

/-- C8: on every reachable state, iter, iter_mut and into_iter yield exactly
the stored key and value pairs, each once, in strictly ascending key order:
all three traversals coincide, they enumerate the level 0 chain, and that
chain is duplicate free and key sorted, so the consuming iterator disposes
each node exactly once. -/
theorem C8_iterators_agree {s : SkipList} (hr : Reachable s) :
    ∃ ids, chainAt s 0 = some ids ∧
      SkipList.iter s = some (ids.map (fun i => (keyOf s i, valOf s i))) ∧
      SkipList.iterMut s = SkipList.iter s ∧
      SkipList.intoIter s = SkipList.iter s ∧
      List.Pairwise (keyLt s) ids ∧ ids.Nodup := by
  obtain ⟨ids, inv⟩ := reachable_WF hr
  exact ⟨ids, chainAt_zero_of_inv inv, iter_of_inv inv, rfl, rfl,
    inv.sorted, sorted_nodup inv.sorted⟩

/-- C8 witness: the iterators agree on the reachable two element state
holding (1, 10) and (3, 30). -/
theorem C8_iterators_agree_witness :
    Reachable (stepOp (stepOp (SkipList.new (fun _ => false)) (Op.ins 1 10)) (Op.ins 3 30)) ∧
    ∃ ids,
      chainAt (stepOp (stepOp (SkipList.new (fun _ => false)) (Op.ins 1 10)) (Op.ins 3 30)) 0
        = some ids ∧
      SkipList.iter (stepOp (stepOp (SkipList.new (fun _ => false)) (Op.ins 1 10)) (Op.ins 3 30))
        = some (ids.map (fun i =>
            (keyOf (stepOp (stepOp (SkipList.new (fun _ => false)) (Op.ins 1 10)) (Op.ins 3 30)) i,
             valOf (stepOp (stepOp (SkipList.new (fun _ => false)) (Op.ins 1 10)) (Op.ins 3 30)) i))) ∧
      SkipList.iterMut (stepOp (stepOp (SkipList.new (fun _ => false)) (Op.ins 1 10)) (Op.ins 3 30))
        = SkipList.iter (stepOp (stepOp (SkipList.new (fun _ => false)) (Op.ins 1 10)) (Op.ins 3 30)) ∧
      SkipList.intoIter (stepOp (stepOp (SkipList.new (fun _ => false)) (Op.ins 1 10)) (Op.ins 3 30))
        = SkipList.iter (stepOp (stepOp (SkipList.new (fun _ => false)) (Op.ins 1 10)) (Op.ins 3 30)) ∧
      List.Pairwise (keyLt (stepOp (stepOp (SkipList.new (fun _ => false)) (Op.ins 1 10)) (Op.ins 3 30))) ids ∧
      ids.Nodup :=
  ⟨Reachable.step _ (Op.ins 3 30) (Reachable.step _ (Op.ins 1 10) (Reachable.new _)),
    C8_iterators_agree
      (Reachable.step _ (Op.ins 3 30) (Reachable.step _ (Op.ins 1 10) (Reachable.new _)))⟩

/-- C9: the internal assertions that the descent level lies within the
forward slot slice being walked never fire in the insert or remove descent,
for any reachable state and any argument key: the result is never the
distinguished assertion failure outcome. -/
theorem C9_assertions_never_fire {s : SkipList} (hr : Reachable s) (k v : Nat) :
    isAssertFail (SkipList.insert s k v) = false ∧
    isAssertFail (SkipList.remove s k) = false := by
  obtain ⟨ids, inv⟩ := reachable_WF hr
  constructor
  · by_cases hp : ∃ x, x ∈ ids ∧ keyOf s x = k
    · rw [insert_present inv v hp]
      rfl
    · have hk : ∀ x ∈ ids, keyOf s x ≠ k := by
        intro x hx hEq
        exact hp ⟨x, hx, hEq⟩
      obtain ⟨A, B, t2, hAB, hA, hB, he, _⟩ := insert_absent inv k v hk
      rw [he]
      rfl
  · obtain ⟨A, rest, hsp, hA, hrest⟩ :=
      split_first (fun x => keyOf s x < k) ids
    rcases hrest with hnil | ⟨rid, Btail, hcons, hge⟩
    · have hall : ∀ x ∈ ids, keyOf s x < k := by
        intro x hx
        rw [hsp, hnil, List.append_nil] at hx
        exact hA x hx
      rw [remove_missing inv hall]
      rfl
    · have hAB : ids = A ++ rid :: Btail := by rw [hsp, hcons]
      have hBge : ∀ x ∈ rid :: Btail, k ≤ keyOf s x := by
        intro x hx
        rcases List.mem_cons.mp hx with rfl | hx2
        · exact Nat.le_of_not_lt hge
        · have hpw : List.Pairwise (keyLt s) (rid :: Btail) :=
            (List.pairwise_append.mp (hAB ▸ inv.sorted)).2.1
          have h1 : keyLt s rid x := (List.rel_of_pairwise_cons hpw) hx2
          exact Nat.le_of_lt (Nat.lt_of_le_of_lt (Nat.le_of_not_lt hge) h1)
      obtain ⟨t, he, _⟩ := remove_found inv hAB hA hBge
      rw [he]
      rfl

/-- C9 witness: no assertion fires when inserting key 2 or removing key 2 in
the reachable one element state holding (1, 10). -/
theorem C9_assertions_never_fire_witness :
    Reachable (stepOp (SkipList.new (fun _ => false)) (Op.ins 1 10)) ∧
    (isAssertFail (SkipList.insert (stepOp (SkipList.new (fun _ => false)) (Op.ins 1 10)) 2 20) = false ∧
      isAssertFail (SkipList.remove (stepOp (SkipList.new (fun _ => false)) (Op.ins 1 10)) 2) = false) :=
  ⟨Reachable.step _ (Op.ins 1 10) (Reachable.new _),
    C9_assertions_never_fire
      (Reachable.step _ (Op.ins 1 10) (Reachable.new _)) 2 20⟩

/-- C10: for every insert performed on a reachable state holding at most one
element, the level source is never consulted (the generator cursor does not
move), the new node's level is exactly 1 on success, and the returned result
is the same for every level source driving the same structure. -/
theorem C10_small_insert_gen_independent {s : SkipList} {k v : Nat}
    (hr : Reachable s) (hc : s.count ≤ 1) (g : Nat → Bool) :
    insResult (setG s g) k v = insResult s k v ∧
    (insAfter s k v).genIdx = s.genIdx ∧
    (insResult s k v = some (Except.ok ()) →
      lvlOf (insAfter s k v) s.heap.length = 1) := by
  obtain ⟨ids, inv⟩ := reachable_WF hr
  have inv2 := InvWith_setG g inv
  by_cases hp : ∃ x, x ∈ ids ∧ keyOf s x = k
  · have hp2 : ∃ x, x ∈ ids ∧ keyOf (setG s g) x = k := hp
    have he := insert_present inv v hp
    have he2 := insert_present inv2 v hp2
    have h1 : insAfter s k v = s := by simp only [insAfter, he]
    refine ⟨?_, by rw [h1], ?_⟩
    · simp only [insResult, he, he2]
    · intro hok
      rw [insResult, he] at hok
      simp at hok
  · have hk : ∀ x ∈ ids, keyOf s x ≠ k := by
      intro x hx hEq
      exact hp ⟨x, hx, hEq⟩
    have hk2 : ∀ x ∈ ids, keyOf (setG s g) x ≠ k := hk
    obtain ⟨A, B, t2, hAB, hA, hB, he, hinv2, hkey, hval, hold, hcount, hheap,
      hgi, hgen, hlvl⟩ := insert_absent inv k v hk
    obtain ⟨A2, B2, t2g, hAB2, hA2, hB2, he2, _⟩ := insert_absent inv2 k v hk2
    have h1 : insAfter s k v = t2 := by simp only [insAfter, he]
    refine ⟨?_, ?_, ?_⟩
    · simp only [insResult, he, he2]
    · rw [h1, hgi]
      exact newGI_of_small hc
    · intro _
      rw [h1, hlvl]
      exact newLvl_of_small hc

/-- C10 witness: in the reachable one element state holding (1, 10), an
insert of key 2 behaves identically under the all-true level source, moves
no generator cursor, and allocates at level 1. -/
theorem C10_small_insert_gen_independent_witness :
    Reachable (stepOp (SkipList.new (fun _ => false)) (Op.ins 1 10)) ∧
    (stepOp (SkipList.new (fun _ => false)) (Op.ins 1 10)).count ≤ 1 ∧
    (insResult (setG (stepOp (SkipList.new (fun _ => false)) (Op.ins 1 10)) (fun _ => true)) 2 20
        = insResult (stepOp (SkipList.new (fun _ => false)) (Op.ins 1 10)) 2 20 ∧
      (insAfter (stepOp (SkipList.new (fun _ => false)) (Op.ins 1 10)) 2 20).genIdx
        = (stepOp (SkipList.new (fun _ => false)) (Op.ins 1 10)).genIdx ∧
      (insResult (stepOp (SkipList.new (fun _ => false)) (Op.ins 1 10)) 2 20
          = some (Except.ok ()) →
        lvlOf (insAfter (stepOp (SkipList.new (fun _ => false)) (Op.ins 1 10)) 2 20)
          (stepOp (SkipList.new (fun _ => false)) (Op.ins 1 10)).heap.length = 1)) :=
  ⟨Reachable.step _ (Op.ins 1 10) (Reachable.new _), by decide,
    C10_small_insert_gen_independent
      (Reachable.step _ (Op.ins 1 10) (Reachable.new _)) (by decide) (fun _ => true)⟩

/-- C1: refuted.  The claimed equivalence with a reference ordered map fails
on the concrete sequence insert(1, 10); insert(3, 30); remove(2): the skip
list's remove of the absent key 2 succeeds and returns the stored pair
(3, 30), dropping the count to 1 and making key 3 unfindable, while the
reference map's remove of 2 fails with a unit error and changes nothing. -/
theorem C1_remove_diverges_from_reference_map :
    rmResult (stepOp (stepOp (SkipList.new (fun _ => false)) (Op.ins 1 10)) (Op.ins 3 30)) 2
      = some (Except.ok (3, 30)) ∧
    (rmAfter (stepOp (stepOp (SkipList.new (fun _ => false)) (Op.ins 1 10)) (Op.ins 3 30)) 2).count = 1 ∧
    SkipList.search (rmAfter (stepOp (stepOp (SkipList.new (fun _ => false)) (Op.ins 1 10)) (Op.ins 3 30)) 2) 3
      = some none ∧
    (mapRemove (mapStep (mapStep [] (Op.ins 1 10)) (Op.ins 3 30)) 2).1
      = Except.error () ∧
    (mapRemove (mapStep (mapStep [] (Op.ins 1 10)) (Op.ins 3 30)) 2).2
      = [(1, 10), (3, 30)] :=
  ⟨rfl, rfl, rfl, rfl, rfl⟩

/-- C4: refuted.  Removing a key that is not present does not always fail:
in the reachable one element state holding (1, 10), remove(0) takes the
successor node unconditionally at level 0, returns Ok((1, 10)), decrements
the count to 0 and unlinks the pair, though key 0 was never inserted. -/
theorem C4_remove_takes_successor_of_absent_key :
    rmResult (stepOp (SkipList.new (fun _ => false)) (Op.ins 1 10)) 0
      = some (Except.ok (1, 10)) ∧
    (rmAfter (stepOp (SkipList.new (fun _ => false)) (Op.ins 1 10)) 0).count = 0 ∧
    SkipList.search (rmAfter (stepOp (SkipList.new (fun _ => false)) (Op.ins 1 10)) 0) 1
      = some none ∧
    (mapRemove (mapStep [] (Op.ins 1 10)) 0).1 = Except.error () :=
  ⟨rfl, rfl, rfl, rfl⟩
